import Mathlib

/-!
Verification of the auto-generate-changelog tool (src/main.py) against its
natural-language specification.  The Python source is shallowly embedded:
strings are `List Char`, Python dicts (which preserve insertion order) are
association lists with update-in-place insertion, and the remote API calls
(`commit.get_pulls()`) are abstracted as explicit oracle parameters.
-/

namespace AGC

/-- Strings are modelled as lists of characters, so that every Python string
operation used by the source can be given an exact executable semantics. -/
abbrev Str := List Char

/-- Coerce a Lean string literal to the `Str` model. -/
def str (s : String) : Str := s.toList

/-! ### Python dictionaries (insertion ordered) -/

/-- Lookup in an insertion-ordered dictionary (Python `d[k]` / `k in d`). -/
def dlookup {α : Type} : List (Str × α) → Str → Option α
  | [], _ => none
  | (k, v) :: rest, key => if k = key then some v else dlookup rest key

/-- Python dict assignment `d[k] = v`: update in place if the key exists
(keeping its insertion position), otherwise append at the end. -/
def dinsert {α : Type} : List (Str × α) → Str → α → List (Str × α)
  | [], key, v => [(key, v)]
  | (k, w) :: rest, key, v =>
    if k = key then (k, v) :: rest else (k, w) :: dinsert rest key v

/-- Python `list.remove(x)`: drop the first occurrence of `x`. -/
def pyRemove : List Str → Str → List Str
  | [], _ => []
  | a :: rest, x => if a = x then rest else a :: pyRemove rest x

/-! ### Python string helpers -/

/-- Python `re.sub(r'^\n*', '', s)`: drop the leading run of newlines. -/
def dropLead : Str → Str
  | [] => []
  | c :: rest => if c = '\n' then dropLead rest else c :: rest

/-- Python `re.sub(r'\n*$', '', s)`: drop the trailing run of newlines. -/
def dropTrail : Str → Str
  | [] => []
  | c :: rest =>
    match dropTrail rest with
    | [] => if c = '\n' then [] else [c]
    | r => c :: r

/-- Python `s.strip('\n')`. -/
def stripNl (s : Str) : Str := dropLead (dropTrail s)

/-- Boolean prefix test, Python `s.startswith(p)`. -/
def isPre : Str → Str → Bool
  | [], _ => true
  | _ :: _, [] => false
  | c :: p, d :: s => if c = d then isPre p s else false

/-- Boolean suffix test, Python `s.endswith(p)`. -/
def isSuf (p s : Str) : Bool := isPre p.reverse s.reverse

/-- Python `s.lower()` (ASCII). -/
def lowerStr (s : Str) : Str := s.map Char.toLower

/-- Python `re.sub(r'  ', r' ', s)`: replace each non-overlapping pair of
spaces, scanning left to right, by a single space (src/main.py line 353). -/
def collapseDouble : Str → Str
  | ' ' :: ' ' :: rest => ' ' :: collapseDouble rest
  | c :: rest => c :: collapseDouble rest
  | [] => []

/-- Python `s.replace('\r\n', '\n')` as used in
`re.sub(r'\r\n', r'\n', release.body)` (src/main.py line 211). -/
def replaceCRLF : Str → Str
  | '\r' :: '\n' :: rest => '\n' :: replaceCRLF rest
  | c :: rest => c :: replaceCRLF rest
  | [] => []

/-- Index of the first occurrence of `sep` in `s` (`none` if absent);
the scanning step behind Python `s.split(sep)` and `re.split`. -/
def findOcc (sep : Str) : Str → Option Nat
  | [] => none
  | c :: rest =>
    if isPre sep (c :: rest) then some 0 else (findOcc sep rest).map (· + 1)

/-- Worker for `pySplit`, structurally recursive on a fuel argument so that
it evaluates by reduction; by `findOcc_some_lt` each recursive call strictly
shrinks the string, so fuel `s.length` is never exhausted. -/
def pySplitAux (sc : Char) (scs : Str) : Nat → Str → List Str
  | 0, s => [s]
  | fuel + 1, s =>
    match findOcc (sc :: scs) s with
    | none => [s]
    | some i => s.take i :: pySplitAux sc scs fuel (s.drop (i + (sc :: scs).length))

/-- Python `s.split(sep)` for a non-empty separator `sc :: scs`:
split at each non-overlapping occurrence, scanning left to right. -/
def pySplit (sc : Char) (scs : Str) (s : Str) : List Str :=
  pySplitAux sc scs s.length s

/-- Python `s.split(sep)`; the source only ever splits on non-empty
separators, so the empty-separator case is irrelevant. -/
def pySplitOn (sep : Str) (s : Str) : List Str :=
  match sep with
  | [] => [s]
  | c :: cs => pySplit c cs s

/-! ### Commit classification (src/main.py `strip_commits`, lines 468-501)

The source builds the Python regex `'^' + type_regex + '(?:[(](.+?)[)])?'`.
All configured type patterns are literal keywords (`feat`, `fix`, `docs`, …),
so `type_regex` is embedded as a literal string `t`; the regex then matches
iff `t` is a prefix of the head, and the optional non-greedy group captures
the shortest parenthesized run of non-newline characters directly after `t`.
-/

/-- Group capture of `[(](.+?)[)]` applied right after the type keyword:
at least one non-newline character, then the first following `)` (non-greedy).
Returns `none` when the group cannot match. -/
def afterParen : Str → Option Str
  | [] => none
  | [_] => none
  | c :: d :: rest =>
    if c = '\n' then none
    else if d = ')' then some [c]
    else (afterParen (d :: rest)).map (fun g => c :: g)

/-- `re.findall(regex, head)[0]` for `regex = '^' + t + '(?:[(](.+?)[)])?'`,
assuming the anchored match succeeded: the captured scope, or `''` when the
optional group did not participate. -/
def pyFindScope (t : Str) (head : Str) : Str :=
  match head.drop t.length with
  | '(' :: r =>
    match afterParen r with
    | some sc => sc
    | none => []
  | _ => []

/-- Python `\s` character class (ASCII part, which is all the source meets). -/
def isPySpace (c : Char) : Bool :=
  c = ' ' ∨ c = '\t' ∨ c = '\n' ∨ c = '\r' ∨ c = '\x0b' ∨ c = '\x0c'

/-- Drop one whitespace character if present: the trailing greedy `\s?`. -/
def dropOneWs : Str → Str
  | [] => []
  | c :: rest => if isPySpace c then rest else c :: rest

/-- Match `\s?:\s?` at the front of `s` (greedy `?`, with backtracking);
returns the remainder after the match, or `none` if it cannot match. -/
def matchColonTail : Str → Option Str
  | [] => none
  | c :: rest =>
    if isPySpace c then
      match rest with
      | ':' :: r2 => some (dropOneWs r2)
      | _ => none
    else if c = ':' then some (dropOneWs rest)
    else none

/-- Backtracking search for `(.+?)[)]\s?:\s?` on the text after `(`:
the non-greedy group is widened one candidate `)` at a time until the
colon tail matches; returns the remainder after the whole match. -/
def parenSubAux : Str → Option Str
  | [] => none
  | c :: rest =>
    if c = '\n' then none
    else
      match rest with
      | ')' :: r2 =>
        match matchColonTail r2 with
        | some rem => some rem
        | none => parenSubAux rest
      | _ => parenSubAux rest

/-- The greedy attempt at the optional scope group followed by the colon
tail: applicable only when the text after the type keyword starts with `(`.
On failure the regex engine falls back to the group-less alternative. -/
def tryParen : Str → Option Str
  | [] => none
  | c :: r => if c = '(' then parenSubAux r else none

/-- `re.sub(regex + r'\s?:\s?', '', head)` for the anchored classifier regex:
if the full pattern `^t(?:[(](.+?)[)])?\s?:\s?` matches a prefix of `head`,
that prefix is removed (the greedy optional group is tried first, then the
group-less alternative); otherwise `head` is returned unchanged
(src/main.py line 495). -/
def subjectSub (t : Str) (head : Str) : Str :=
  if isPre t head then
    match tryParen (head.drop t.length) with
    | some rem => rem
    | none =>
      match matchColonTail (head.drop t.length) with
      | some rem => rem
      | none => head
  else head

/-- A commit record as assembled by `get_release_content`
(keys `head`, `sha`, `url`, `pr_links`). -/
structure CommitInfo where
  head : Str
  sha : Str
  url : Str
  pr_links : List Str
deriving DecidableEq, Repr

/-- A selected commit inside a scope bucket: `{'subject': …, 'commit': …}`. -/
structure SelCommit where
  subject : Str
  commit : CommitInfo
deriving DecidableEq, Repr

/-- Append `sel` to the bucket of `scope`, creating the bucket if missing
(Python lines 496-500). -/
def scopesAdd (scopes : List (Str × List SelCommit)) (scope : Str)
    (sel : SelCommit) : List (Str × List SelCommit) :=
  match dlookup scopes scope with
  | some l => dinsert scopes scope (l ++ [sel])
  | none => dinsert scopes scope [sel]

/-- One iteration of the `strip_commits` loop body (src/main.py 484-500). -/
def stripStep (t : Str) (default_scope : Str) (suppress_unscoped : Bool)
    (scopes : List (Str × List SelCommit)) (commit : CommitInfo) :
    List (Str × List SelCommit) :=
  if isPre t commit.head then
    let scope := pyFindScope t commit.head
    if scope = [] ∧ suppress_unscoped then scopes
    else
      let scope := if scope = [] then default_scope else scope
      if lowerStr scope = str "changelog" ∧ t = str "docs" then scopes
      else scopesAdd scopes scope ⟨subjectSub t commit.head, commit⟩
  else scopes

/-- `strip_commits(commits, type_regex, default_scope, suppress_unscoped)`
(src/main.py lines 468-501): classify each commit head against the type
keyword and bucket the survivors by resolved scope. -/
def strip_commits (commits : List CommitInfo) (t : Str) (default_scope : Str)
    (suppress_unscoped : Bool) : List (Str × List SelCommit) :=
  commits.foldl (stripStep t default_scope suppress_unscoped) []

/-- The scope `strip_commits` resolves for a head that matched the type
keyword: the captured scope, or the default scope when the group is empty. -/
def resolvedScope (t head default_scope : Str) : Str :=
  if pyFindScope t head = [] then default_scope else pyFindScope t head

/-- Whether the subject-stripping pattern `^t(?:[(](.+?)[)])?\s?:\s?`
matches a prefix of `head`, i.e. whether a colon (up to one whitespace on
each side) follows the matched type prefix (with or without a scope). -/
def colonFollows (t head : Str) : Bool :=
  (tryParen (head.drop t.length)).isSome ||
    (matchColonTail (head.drop t.length)).isSome

/-! ### Release rendering (src/main.py lines 504-635) -/

/-- Head computation of `get_release_content` (src/main.py lines 349-355):
split the message into paragraphs at `\n\n`; if the first paragraph ends
with `...` and the second paragraph starts with `...`, splice the second
paragraph:s first line onto the truncated head with a space in between and
collapse double spaces. -/
def processHead (message : Str) : Str :=
  let parts := pySplitOn (str "\n\n") message
  let head := parts.headI
  if head.drop (head.length - 3) = str "..." ∧ 1 < parts.length then
    if (parts.getI 1).take 3 = str "..." then
      collapseDouble (head.take (head.length - 3) ++ [' '] ++
        ((pySplitOn (str "\n") (parts.getI 1)).headI.drop 3))
    else head
  else head

/-- The literal begin marker of a hidden region (src/main.py line 588). -/
def hideBegin : Str := str "<!-- HIDE IN CHANGELOG BEGIN -->"

/-- The literal end marker of a hidden region (src/main.py line 588). -/
def hideEnd : Str := str "<!-- HIDE IN CHANGELOG END -->"

/-- Worker for `splitHidden`; fuel as in `pySplitAux`. -/
def splitHiddenAux : Nat → Str → List Str
  | 0, s => [s]
  | fuel + 1, s =>
    match findOcc hideBegin s with
    | none => [s]
    | some i =>
      match findOcc hideEnd (s.drop (i + hideBegin.length)) with
      | none => [s]
      | some j =>
        s.take i ::
          splitHiddenAux fuel ((s.drop (i + hideBegin.length)).drop (j + hideEnd.length))

/-- `re.split(r'<!-- HIDE IN CHANGELOG BEGIN -->(?:.|\n)*?<!-- HIDE IN CHANGELOG END -->', body)`
(src/main.py lines 587-589): the fragments of `body` around each hidden
region; a begin marker with no later end marker starts no region. -/
def splitHidden (s : Str) : List Str := splitHiddenAux s.length s

/-- One iteration of the description re-joining loop (src/main.py 594-622):
Python compares `elem` by value with the first and last fragment to choose
which side to trim, but every appended paragraph ends up stripped of
newlines on both sides. -/
def descStep (first last : Str) (desc : Str) (elem : Str) : Str :=
  let para :=
    if elem = first then dropTrail elem
    else if elem = last then dropLead elem
    else dropLead (dropTrail elem)
  if para = [] then desc
  else if desc = [] then stripNl para
  else stripNl desc ++ str "\n\n" ++ stripNl para

/-- The description computation for a non-Unreleased release
(src/main.py lines 587-626): strip hidden regions, re-join the remaining
fragments, substitute the replacement string when empty, and trim outer
newlines. -/
def renderDescription (body repl : Str) : Str :=
  let frags := splitHidden body
  let description :=
    if frags.length = 1 then frags.headI
    else frags.foldl (descStep frags.headI (frags.getLastD [])) []
  let description := if description = [] then repl else description
  stripNl description

/-- `generate_section` (src/main.py lines 504-533). -/
def generate_section (release_commits : List CommitInfo) (t : Str)
    (default_scope : Str) (suppress_unscoped : Bool) : Str :=
  let scopes := strip_commits release_commits t default_scope suppress_unscoped
  scopes.foldl
    (fun sectionAcc p =>
      let scope_content := str "- " ++ p.1 ++ str ":\n" ++
        (p.2.foldl
          (fun acc sel =>
            acc ++ str "  - " ++ sel.subject ++ str " ([" ++
              sel.commit.sha.take 7 ++ str "](" ++ sel.commit.url ++
              str "))" ++ sel.commit.pr_links.foldl (fun a pr => a ++ pr) [] ++
              str "\n") [])
      sectionAcc ++ scope_content ++ str "\n") []

/-- `generate_release_body` (src/main.py lines 536-558); each configured
part is the pair obtained from splitting `'regex:Name'` at the colon. -/
def generate_release_body (release_commits : List CommitInfo)
    (part_name : List (Str × Str)) (default_scope : Str)
    (suppress_unscoped : Bool) : Str :=
  part_name.foldl
    (fun release_body part =>
      let sec := generate_section release_commits part.1 default_scope
        suppress_unscoped
      if sec = [] then release_body
      else release_body ++ str "### " ++ part.2 ++ str "\n\n" ++ sec) []

/-- Release metadata as stored in `self.releases[tag]`
(src/main.py lines 189-215). -/
structure ReleaseMeta where
  html_url : Str
  body : Str
  created_at : Str
  commit_sha : Str
  content : Str
deriving DecidableEq, Repr

/-- `generate_release_changelog` (src/main.py lines 561-635). -/
def generate_release_changelog (meta_data : ReleaseMeta)
    (release_commits : List CommitInfo) (release_tag : Str)
    (part_name : List (Str × Str)) (default_scope : Str)
    (suppress_unscoped : Bool) (replace_empty_release_info : Str) : Str :=
  let release_info :=
    if release_tag = str "Unreleased" then
      str "## Unreleased\n\n" ++ replace_empty_release_info
    else
      str "## [" ++ release_tag ++ str "](" ++ meta_data.html_url ++
        str ") - " ++ meta_data.created_at ++ str "\n\n" ++
        renderDescription meta_data.body replace_empty_release_info
  let release_body := generate_release_body release_commits part_name
    default_scope suppress_unscoped
  if release_body = [] ∧ release_tag = str "Unreleased" then []
  else stripNl release_info ++ str "\n\n" ++ stripNl release_body

/-! ### Spec-side companions used by individual claims -/

/-- Modelled from the spec words for the truncation splice: strip the
trailing ellipsis of the head and the leading ellipsis of the continuation
line, join them with a single inserted space, and collapse double spaces. -/
def spliceSubjectLine (head contLine : Str) : Str :=
  collapseDouble (head.take (head.length - 3) ++ [' '] ++ contLine.drop 3)

/-- Join paragraphs onto `d` with one blank line between non-empty parts. -/
def joinInto (d : Str) (l : List Str) : Str :=
  l.foldl (fun acc p => if acc = [] then p else acc ++ str "\n\n" ++ p) d

/-- The spec reading of the description pipeline: remove hidden regions,
strip each fragment of outer newlines, keep the non-empty fragments, join
them with one blank line, substitute the replacement when the join is
empty, and trim the outer edges. -/
def specDescription (body repl : Str) : Str :=
  let frags := splitHidden body
  let joined :=
    if frags.length = 1 then frags.headI
    else joinInto [] ((frags.map stripNl).filter (fun f => f ≠ []))
  stripNl (if joined = [] then repl else joined)

/-! ### Existing-changelog parsing and assembly
(src/main.py lines 20-21, 285-311, 394-403) -/

/-- `BEGIN_CHANGELOG_TITLE` (src/main.py line 21). -/
def titleLine : Str := str "# CHANGELOG"

/-- `END_CHANGELOG_SIGNATURE` (src/main.py line 20, a raw Python string). -/
def signature : Str :=
  str "\\* *This CHANGELOG was automatically generated by [auto-generate-changelog](https://github.com/BobAnkh/auto-generate-changelog)*"

/-- Scan for `]` for the group of `re.search(r'\[.*?\]', s)`: the shortest
run of non-newline characters up to a closing bracket. -/
def afterBracket : Str → Option Str
  | [] => none
  | c :: rest =>
    if c = ']' then some []
    else if c = '\n' then none
    else (afterBracket rest).map (fun g => c :: g)

/-- `re.search(r'\[.*?\]', s)` (src/main.py line 303): the content of the
leftmost bracketed token whose interior stays on one line. -/
def findBracket : Str → Option Str
  | [] => none
  | c :: rest =>
    if c = '[' then
      match afterBracket rest with
      | some g => some g
      | none => findBracket rest
    else findBracket rest

/-- Warning printed for a document that fails the envelope check
(src/main.py lines 296-298). -/
def warnFormat : Str :=
  str "[WARN] The changelog is not in the correct format! Will clear the changelog."

/-- Warning printed for a release block without a bracketed tag
(src/main.py lines 305-307). -/
def warnPart : Str :=
  str "[WARN] This part is not in the correct format! Will ignore this part."

/-- One iteration of the `analyze_changelog` loop (src/main.py 300-311):
skip the Unreleased block and empty segments, warn on a segment with no
bracketed tag, otherwise store `'## ' + segment.strip('\n')` under the tag. -/
def parseSegStep (acc : List (Str × Str) × List Str) (seg : Str) :
    List (Str × Str) × List Str :=
  if isPre (str "Unreleased") seg ∨ seg = [] then acc
  else
    match findBracket seg with
    | none => (acc.1, acc.2 ++ [warnPart])
    | some tag => (dinsert acc.1 tag (str "## " ++ stripNl seg), acc.2)

/-- `analyze_changelog` (src/main.py lines 285-311), returning the
`release_in_changelog` mapping together with the warnings printed. -/
def analyze_changelog (changelog : Str) : List (Str × Str) × List Str :=
  if isPre titleLine changelog ∧ isSuf (signature ++ ['\n']) changelog then
    let body := (changelog.take (changelog.length - (signature ++ ['\n']).length)).drop
      titleLine.length
    (pySplitOn (str "\n\n## ") body).foldl parseSegStep ([], [])
  else if changelog ≠ [] then ([], [warnFormat])
  else (pySplitOn (str "\n\n## ") []).foldl parseSegStep ([], [])

/-- `assemble_changelog` (src/main.py lines 394-403): title, then every
release value with non-empty content (in dict order), then the signature. -/
def assemble_changelog (releases : List (Str × ReleaseMeta)) : Str :=
  (releases.foldl
    (fun changelog p =>
      if p.2.content ≠ [] then changelog ++ str "\n\n" ++ stripNl p.2.content
      else changelog) titleLine) ++ str "\n\n" ++ signature ++ ['\n']

/-- Assembly of a plain list of blocks in order: what `assemble_changelog`
does to the non-empty contents, and the way a parsed tag-to-block mapping is
reassembled for the round-trip claim. -/
def assembleBlocks (bs : List Str) : Str :=
  (bs.foldl (fun changelog b => changelog ++ str "\n\n" ++ stripNl b) titleLine) ++
    str "\n\n" ++ signature ++ ['\n']

/-- The block separator the parser splits on (src/main.py line 300). -/
def sepBlock : Str := str "\n\n## "

/-- A rendered block built from a tag and the text after its bracket. -/
def mkBlock (p : Str × Str) : Str := str "## [" ++ p.1 ++ str "]" ++ p.2

/-- The parser segment corresponding to a block: the block without its
leading `## `. -/
def segOf (p : Str × Str) : Str := '[' :: p.1 ++ ']' :: p.2

/-- Well-formedness of a (tag, rest) block pair under which the parser
recovers the block exactly: the tag stays on one line and has no closing
bracket, the block body contains no occurrence of the block separator, and
the block does not end in a newline. -/
def wfBlockPair (p : Str × Str) : Prop :=
  (∀ c ∈ p.1, ¬(c = ']' ∨ c = '\n')) ∧
  findOcc sepBlock (segOf p) = none ∧
  p.2.getLast? ≠ some '\n'

instance (p : Str × Str) : Decidable (wfBlockPair p) := by
  unfold wfBlockPair
  infer_instance

/-- The changelog body generated by a list of blocks: a separator before
each segment and a final blank line (what sits between the title and the
signature in an assembled document). -/
def chainX : List (Str × Str) → Str
  | [] => ['\n', '\n']
  | p :: rest => sepBlock ++ (segOf p ++ chainX rest)

/-- The segments the parser splitter recovers from `chainX`: the final
segment keeps the trailing blank line. -/
def segsOf : List (Str × Str) → List Str
  | [] => []
  | [p] => [segOf p ++ ['\n', '\n']]
  | p :: rest => segOf p :: segsOf rest

/-! ### The reconciliation engine (src/main.py `get_data`, lines 171-262)

`get_data` mixes pure bookkeeping with remote API calls.  The API data
(releases, tag SHAs, branch commits, the parsed prior changelog) are inputs;
`commit.get_pulls()` is an oracle `pulls` that either yields the pull
requests of a commit or raises a `GithubException` carrying an HTTP status,
which `get_release_content` turns into a `('', status)` result.  The loop
is additionally instrumented with a ghost log of the `get_release_content`
invocations (`calls`) and of the printed error statuses (`errors`); neither
field influences control flow. -/

/-- An API release object as consumed by `get_data`. -/
structure ReleaseInfo where
  tag_name : Str
  html_url : Str
  body : Str
  created_at : Str
deriving DecidableEq, Repr

/-- An API commit object as consumed by `get_data`. -/
structure CommitData where
  sha : Str
  message : Str
  url : Str
deriving DecidableEq, Repr

/-- `f''' ([#{pull.number}]({pull.html_url}))'''` (src/main.py line 364);
the pull number is kept as a string. -/
def mkPrLink (p : Str × Str) : Str :=
  str " ([#" ++ p.1 ++ str "](" ++ p.2 ++ str "))"

/-- The commit-processing loop of `get_release_content`
(src/main.py lines 348-371): build the `selected_commits` records, failing
with the exception status when resolving pull requests fails. -/
def grcLoop (pulls : CommitData → Except Int (List (Str × Str))) :
    List CommitData → List CommitInfo → Except Int (List CommitInfo)
  | [], acc => .ok acc
  | c :: cs, acc =>
    match pulls c with
    | .error s => .error s
    | .ok ps =>
      grcLoop pulls cs
        (acc ++ [⟨processHead c.message, c.sha, c.url, ps.map mkPrLink⟩])

/-- Fallback metadata; `self.releases[release_tag]` never actually misses. -/
def defaultMeta : ReleaseMeta := ⟨[], [], [], [], []⟩

/-- `get_release_content` (src/main.py lines 341-389): on success the
rendered release content with status 0, on a pull-request API failure the
pair `('', status)`. -/
def get_release_content (releases : List (Str × ReleaseMeta))
    (part_name : List (Str × Str)) (default_scope : Str)
    (suppress_unscoped : Bool) (replace_empty_release_info : Str)
    (pulls : CommitData → Except Int (List (Str × Str)))
    (release_tag : Str) (commits : List CommitData) : Str × Int :=
  match grcLoop pulls commits [] with
  | .error s => ([], s)
  | .ok selected =>
    (generate_release_changelog ((dlookup releases release_tag).getD defaultMeta)
      selected release_tag part_name default_scope suppress_unscoped
      replace_empty_release_info, 0)

/-- `{m with content := c}`: the effect of
`self.releases[tag]['content'] = c` on one metadata record. -/
def setC (c : Str) (m : ReleaseMeta) : ReleaseMeta := { m with content := c }

/-- `self.releases[t]['content'] = c` on the whole dictionary. -/
def setContentD (d : List (Str × ReleaseMeta)) (t : Str) (c : Str) :
    List (Str × ReleaseMeta) :=
  d.map (fun p => if p.1 = t then (p.1, setC c p.2) else p)

/-- Steps 178-196 of `get_data`: the `regenerate_releases` list — the first
`regenerate_count` tags (all if negative), then every tag absent from the
prior document, then `'Unreleased'` when unreleased commits are included. -/
def buildRegenerate (tagNames : List Str) (regenerate_count : Int)
    (release_in_changelog : List (Str × Str)) (unreleased_commits : Bool) :
    List Str :=
  let rr := if regenerate_count < 0 then tagNames
    else tagNames.take regenerate_count.toNat
  let rr := tagNames.foldl
    (fun acc tn =>
      if (dlookup release_in_changelog tn).isNone ∧ ¬tn ∈ acc then acc ++ [tn]
      else acc) rr
  if unreleased_commits then rr ++ [str "Unreleased"] else rr

/-- The synthetic `'Unreleased'` entry (src/main.py lines 189-195). -/
def emptyMeta : ReleaseMeta := ⟨[], [], [], [], []⟩

/-- One iteration of the metadata loop (src/main.py lines 203-215). -/
def prepStep (tags_sha release_in_changelog : List (Str × Str))
    (regen : List Str) (d : List (Str × ReleaseMeta)) (r : ReleaseInfo) :
    List (Str × ReleaseMeta) :=
  let commit_sha := (dlookup tags_sha r.tag_name).getD []
  let release_content :=
    if (dlookup release_in_changelog r.tag_name).isSome ∧ ¬r.tag_name ∈ regen
    then (dlookup release_in_changelog r.tag_name).getD []
    else []
  dinsert d r.tag_name
    (⟨r.html_url, stripNl (replaceCRLF r.body), r.created_at, commit_sha,
      release_content⟩ : ReleaseMeta)

/-- Lines 187-215 of `get_data`: seed the synthetic Unreleased entry, then
store every release with its tag SHA and its reusable prior content. -/
def prepReleases (rels : List ReleaseInfo) (tags_sha : List (Str × Str))
    (release_in_changelog : List (Str × Str)) (regen : List Str)
    (unreleased_commits : Bool) : List (Str × ReleaseMeta) :=
  let init : List (Str × ReleaseMeta) :=
    if unreleased_commits then [(str "Unreleased", emptyMeta)] else []
  rels.foldl (prepStep tags_sha release_in_changelog regen) init

/-- `release_commit_sha_list` (src/main.py lines 216-219): commit SHA to
owning release tag, in dict-comprehension order. -/
def buildShaMap (releases : List (Str × ReleaseMeta)) : List (Str × Str) :=
  releases.foldl (fun m p => dinsert m p.2.commit_sha p.1) []

/-- Ghost record of one `get_release_content` invocation. -/
structure CallRec where
  tag : Str
  bucket : List CommitData
  content : Str
  status : Int
deriving DecidableEq, Repr

/-- The mutable state of the `get_data` partition loop, plus ghost logs. -/
structure GenState where
  releases : List (Str × ReleaseMeta)
  regen : List Str
  cur : Str
  selected : List CommitData
  calls : List CallRec
  errors : List Int
deriving DecidableEq, Repr

/-- The commit partition loop (src/main.py lines 226-249), parametric in the
renderer so that its control structure can be reasoned about uniformly;
`runGetData` instantiates `render` with `get_release_content`. -/
def genLoop (render : List (Str × ReleaseMeta) → Str → List CommitData → Str × Int)
    (shaMap : List (Str × Str)) : List CommitData → GenState → GenState
  | [], st => st
  | c :: cs, st =>
    match dlookup shaMap c.sha with
    | some boundTag =>
      if st.cur ∈ st.regen then
        let res := render st.releases st.cur st.selected
        let st1 := { st with calls := st.calls ++ [(⟨st.cur, st.selected, res.1, res.2⟩ : CallRec)] }
        if res.2 ≠ 0 ∧ res.2 ≠ 200 then
          { st1 with selected := [], errors := st1.errors ++ [res.2] }
        else
          let st2 := { st1 with
            releases := setContentD st1.releases st1.cur res.1,
            regen := pyRemove st1.regen st1.cur,
            cur := boundTag }
          if st2.regen.length = 0 then { st2 with selected := [] }
          else genLoop render shaMap cs { st2 with selected := [c] }
      else genLoop render shaMap cs { st with cur := boundTag, selected := [c] }
    | none => genLoop render shaMap cs { st with selected := st.selected ++ [c] }

/-- The tail of `get_data` (src/main.py lines 250-259): render the final
open bucket when it is still eligible. -/
def genPost (render : List (Str × ReleaseMeta) → Str → List CommitData → Str × Int)
    (st : GenState) : GenState :=
  if st.selected ≠ [] ∧ st.cur ∈ st.regen then
    let res := render st.releases st.cur st.selected
    let st1 := { st with calls := st.calls ++ [(⟨st.cur, st.selected, res.1, res.2⟩ : CallRec)] }
    if res.2 ≠ 0 ∧ res.2 ≠ 200 then
      { st1 with selected := [], errors := st1.errors ++ [res.2] }
    else
      { st1 with
        releases := setContentD st1.releases st1.cur res.1,
        regen := pyRemove st1.regen st1.cur }
  else st

/-- The inputs of one `get_data` run: the API snapshot, the parsed prior
document, and the configuration. -/
structure GenInputs where
  rels : List ReleaseInfo
  tags_sha : List (Str × Str)
  release_in_changelog : List (Str × Str)
  commits : List CommitData
  regenerate_count : Int
  unreleased_commits : Bool
  part_name : List (Str × Str)
  default_scope : Str
  suppress_unscoped : Bool
  replace_empty_release_info : Str

/-- The state right before the partition loop (src/main.py line 221). -/
def initState (inp : GenInputs) : GenState :=
  let regen := buildRegenerate (inp.rels.map (fun r => r.tag_name))
    inp.regenerate_count inp.release_in_changelog inp.unreleased_commits
  let releases := prepReleases inp.rels inp.tags_sha inp.release_in_changelog
    regen inp.unreleased_commits
  ⟨releases, regen, str "Unreleased", [], [], []⟩

/-- The renderer `get_data` actually calls. -/
def renderOf (inp : GenInputs)
    (pulls : CommitData → Except Int (List (Str × Str))) :
    List (Str × ReleaseMeta) → Str → List CommitData → Str × Int :=
  fun rels tag cs =>
    get_release_content rels inp.part_name inp.default_scope
      inp.suppress_unscoped inp.replace_empty_release_info pulls tag cs

/-- `get_data` (src/main.py lines 171-262) from the point where the API
snapshot is in hand: build the eligibility list and metadata, partition the
commit stream, and render the final bucket. -/
def runGetData (pulls : CommitData → Except Int (List (Str × Str)))
    (inp : GenInputs) : GenState :=
  let st0 := initState inp
  let shaMap := buildShaMap st0.releases
  let st1 := if 0 < st0.regen.length
    then genLoop (renderOf inp pulls) shaMap inp.commits st0 else st0
  genPost (renderOf inp pulls) st1

/-- The statuses of the failed render calls in a ghost log. -/
def badOf (calls : List CallRec) : List Int :=
  calls.filterMap
    (fun r => if r.status ≠ 0 ∧ r.status ≠ 200 then some r.status else none)

/-- The content of the last successful render of tag `t` in a ghost log. -/
def lastGood : List CallRec → Str → Option Str
  | [], _ => none
  | r :: rest, t =>
    match lastGood rest t with
    | some c => some c
    | none =>
      if (r.status = 0 ∨ r.status = 200) ∧ r.tag = t then some r.content
      else none

/-- How one segment of the partition loop changes the state: the ghost call
log grows by `nc`; the error log grows by exactly the failed statuses of
`nc`; a failure is final (single, last, with empty content and a discarded
bucket); and a release content changes exactly when `nc` holds a successful
render of it. -/
def EvolvesW (nc : List CallRec) (st st2 : GenState) : Prop :=
  st2.calls = st.calls ++ nc ∧
  st2.errors = st.errors ++ badOf nc ∧
  (badOf nc = [] ∨
    (∃ s, badOf nc = [s] ∧ st2.selected = [] ∧
      ∃ r, nc.getLast? = some r ∧ r.status = s ∧ r.content = [])) ∧
  (∀ t, dlookup st2.releases t =
    match lastGood nc t with
    | some c => (dlookup st.releases t).map (setC c)
    | none => dlookup st.releases t)

/-- What the partial-success failure policy guarantees about a finished
run whose error log is non-empty: exactly one failure was logged, its
status is neither 0 nor 200, the in-progress bucket was discarded, the
failing call is the last one and returned empty content; releases without a
successful render keep the content they had after the metadata phase (their
prior block, or empty), and releases rendered before the failure hold their
newly rendered content. -/
def AbortSpec (inp : GenInputs) (res : GenState) : Prop :=
  (∃ s : Int, res.errors = [s] ∧ ¬s = 0 ∧ ¬s = 200 ∧
    res.selected = [] ∧
    (∃ r, res.calls.getLast? = some r ∧ r.status = s ∧ r.content = [])) ∧
  (∀ t : Str, lastGood res.calls t = none →
    dlookup res.releases t = dlookup (initState inp).releases t) ∧
  (∀ (t : Str) (c : Str), lastGood res.calls t = some c →
    dlookup res.releases t =
      (dlookup (initState inp).releases t).map (setC c))

/-! ## Theorems

All definitions above embed src/main.py; everything below proves
properties of that embedding. -/

theorem findOcc_some_lt {sep : Str} : ∀ {s : Str} {i : Nat},
    findOcc sep s = some i → i < s.length := by
  intro s
  induction s with
  | nil => intro i h; simp [findOcc] at h
  | cons c rest ih =>
    intro i h
    rw [findOcc] at h
    by_cases hp : isPre sep (c :: rest) = true
    · rw [if_pos hp] at h
      cases h
      simp
    · rw [if_neg hp] at h
      cases hfr : findOcc sep rest with
      | none => rw [hfr] at h; simp at h
      | some j =>
        rw [hfr] at h
        simp at h
        have := ih hfr
        simp only [List.length_cons]
        omega

/-! ### Newline-stripping toolkit -/

theorem dropLead_eq_nil {s : Str} : dropLead s = [] ↔ ∀ c ∈ s, c = '\n' := by
  induction s with
  | nil => simp [dropLead]
  | cons c rest ih =>
    by_cases hc : c = '\n'
    · subst hc
      simp [dropLead, ih]
    · simp [dropLead, hc]

theorem dropTrail_eq_nil {s : Str} : dropTrail s = [] ↔ ∀ c ∈ s, c = '\n' := by
  induction s with
  | nil => simp [dropTrail]
  | cons c rest ih =>
    rw [dropTrail]
    cases hdt : dropTrail rest with
    | nil =>
      by_cases hc : c = '\n'
      · subst hc
        constructor
        · intro _ x hx
          rcases List.mem_cons.mp hx with h | h
          · exact h
          · exact ih.mp hdt x h
        · intro _
          simp
      · simp [hc]
    | cons d r =>
      have : ¬ ∀ x ∈ rest, x = '\n' := fun h => by simp [ih.mpr h] at hdt
      simp only [List.mem_cons]
      constructor
      · intro h; exact absurd h (by simp)
      · intro h
        exact absurd (fun x hx => h x (Or.inr hx)) this

theorem dropTrail_idem {s : Str} : dropTrail (dropTrail s) = dropTrail s := by
  induction s with
  | nil => rfl
  | cons c rest ih =>
    rw [dropTrail]
    cases hdt : dropTrail rest with
    | nil =>
      by_cases hc : c = '\n' <;> simp [hc, dropTrail]
    | cons d r =>
      rw [dropTrail, ← hdt, ih, hdt]

theorem stripNl_dropTrail {s : Str} : stripNl (dropTrail s) = stripNl s := by
  unfold stripNl
  rw [dropTrail_idem]

theorem dropLead_dropTrail_dropLead {s : Str} :
    dropLead (dropTrail (dropLead s)) = dropLead (dropTrail s) := by
  induction s with
  | nil => rfl
  | cons c rest ih =>
    by_cases hc : c = '\n'
    · subst hc
      rw [show dropLead ('\n' :: rest) = dropLead rest from by
        rw [dropLead]; simp]
      rw [ih, dropTrail]
      cases hdt : dropTrail rest with
      | nil => rfl
      | cons d r =>
        rw [show dropLead ('\n' :: d :: r) = dropLead (d :: r) from by
          rw [dropLead]; simp]
    · rw [show dropLead (c :: rest) = c :: rest from by
        rw [dropLead]; simp [hc]]

theorem stripNl_dropLead {s : Str} : stripNl (dropLead s) = stripNl s :=
  dropLead_dropTrail_dropLead

theorem stripNl_eq_nil {s : Str} : stripNl s = [] ↔ ∀ c ∈ s, c = '\n' := by
  unfold stripNl
  constructor
  · intro h
    have h1 : ∀ c ∈ dropTrail s, c = '\n' := dropLead_eq_nil.mp h
    have h2 : dropTrail (dropTrail s) = [] := dropTrail_eq_nil.mpr h1
    rw [dropTrail_idem] at h2
    exact dropTrail_eq_nil.mp h2
  · intro h
    rw [dropTrail_eq_nil.mpr h]
    rfl

theorem stripNl_idem {s : Str} : stripNl (stripNl s) = stripNl s := by
  unfold stripNl
  rw [dropLead_dropTrail_dropLead, dropTrail_idem]

theorem dropLead_head {s : Str} : (dropLead s).head? ≠ some '\n' := by
  induction s with
  | nil => simp [dropLead]
  | cons c rest ih =>
    rw [dropLead]
    by_cases hc : c = '\n'
    · rw [if_pos hc]; exact ih
    · rw [if_neg hc]; simp [hc]

theorem dropTrail_getLast {s : Str} : (dropTrail s).getLast? ≠ some '\n' := by
  induction s with
  | nil => simp [dropTrail]
  | cons c rest ih =>
    rw [dropTrail]
    cases hdt : dropTrail rest with
    | nil =>
      by_cases hc : c = '\n'
      · rw [if_pos hc]; simp
      · rw [if_neg hc]; simp [hc]
    | cons d r =>
      rw [hdt] at ih
      rw [List.getLast?_cons_cons]
      exact ih

theorem getLast?_dropLead {s : Str} (h : dropLead s ≠ []) :
    (dropLead s).getLast? = s.getLast? := by
  induction s with
  | nil => rfl
  | cons c rest ih =>
    rw [dropLead] at h ⊢
    by_cases hc : c = '\n'
    · rw [if_pos hc] at h ⊢
      rw [ih h]
      cases hr : rest with
      | nil => rw [hr] at h; simp [dropLead] at h
      | cons d r => rw [List.getLast?_cons_cons]
    · rw [if_neg hc]

theorem stripNl_head {s : Str} : (stripNl s).head? ≠ some '\n' :=
  dropLead_head

theorem stripNl_getLast {s : Str} : (stripNl s).getLast? ≠ some '\n' := by
  unfold stripNl
  by_cases h : dropLead (dropTrail s) = []
  · rw [h]; simp
  · rw [getLast?_dropLead h]
    exact dropTrail_getLast

theorem dropTrail_eq_self {s : Str} (h : s.getLast? ≠ some '\n') :
    dropTrail s = s := by
  induction s with
  | nil => rfl
  | cons c rest ih =>
    rw [dropTrail]
    cases hr : rest with
    | nil =>
      rw [hr] at h
      simp only [List.getLast?_singleton] at h
      have hc : ¬ c = '\n' := fun hc => h (by rw [hc])
      simp [dropTrail, hc]
    | cons d r =>
      rw [hr] at h ih
      rw [List.getLast?_cons_cons] at h
      rw [ih h]

theorem dropLead_eq_self {s : Str} (h : s.head? ≠ some '\n') :
    dropLead s = s := by
  cases s with
  | nil => rfl
  | cons c rest =>
    simp only [List.head?_cons] at h
    have hc : ¬ c = '\n' := fun hc => h (by rw [hc])
    rw [dropLead, if_neg hc]

theorem stripNl_eq_self {s : Str} (h1 : s.head? ≠ some '\n')
    (h2 : s.getLast? ≠ some '\n') : stripNl s = s := by
  unfold stripNl
  rw [dropTrail_eq_self h2, dropLead_eq_self h1]

theorem getLast?_append_ne {x y : Str} (h : y ≠ []) :
    (x ++ y).getLast? = y.getLast? := by
  rw [List.getLast?_append]
  cases hy : y.getLast? with
  | none => exact absurd (List.getLast?_eq_none_iff.mp hy) h
  | some c => rfl

theorem head?_append_ne {x y : Str} (h : x ≠ []) :
    (x ++ y).head? = x.head? := by
  cases x with
  | nil => exact absurd rfl h
  | cons c r => rfl

/-! ### C9 — the description pipeline -/

theorem descStep_eq (f l d e : Str) :
    descStep f l d e =
      if stripNl e = [] then d
      else if d = [] then stripNl e
      else stripNl d ++ str "\n\n" ++ stripNl e := by
  have hfin : ∀ v : Str, ((v = []) ↔ (stripNl e = [])) → stripNl v = stripNl e →
      (if v = [] then d
        else if d = [] then stripNl v
        else stripNl d ++ str "\n\n" ++ stripNl v) =
      (if stripNl e = [] then d
        else if d = [] then stripNl e
        else stripNl d ++ str "\n\n" ++ stripNl e) := by
    intro v hiff hsv
    by_cases hv : v = []
    · rw [if_pos hv, if_pos (hiff.mp hv)]
    · rw [if_neg hv, if_neg (fun h => hv (hiff.mpr h)), hsv]
  simp only [descStep]
  by_cases h1 : e = f
  · rw [if_pos h1]
    exact hfin (dropTrail e) (by rw [dropTrail_eq_nil, stripNl_eq_nil])
      stripNl_dropTrail
  · rw [if_neg h1]
    by_cases h2 : e = l
    · rw [if_pos h2]
      exact hfin (dropLead e) (by rw [dropLead_eq_nil, stripNl_eq_nil])
        stripNl_dropLead
    · rw [if_neg h2]
      exact hfin (dropLead (dropTrail e)) (by rw [show dropLead (dropTrail e) = stripNl e from rfl]) (by rw [show dropLead (dropTrail e) = stripNl e from rfl, stripNl_idem])

theorem descFold_eq_joinInto :
    ∀ (elems : List Str) (f l d : Str), stripNl d = d →
      elems.foldl (descStep f l) d =
        joinInto d ((elems.map stripNl).filter (fun x => x ≠ [])) := by
  intro elems
  induction elems with
  | nil => intro f l d _; rfl
  | cons e rest ih =>
    intro f l d hd
    rw [List.foldl_cons, descStep_eq, List.map_cons]
    by_cases he : stripNl e = []
    · rw [if_pos he, he, List.filter_cons_of_neg (by simp)]
      exact ih f l d hd
    · rw [if_neg he, List.filter_cons_of_pos (by simp [he])]
      unfold joinInto
      rw [List.foldl_cons]
      by_cases hdnil : d = []
      · rw [if_pos hdnil, if_pos hdnil]
        exact ih f l (stripNl e) stripNl_idem
      · rw [if_neg hdnil, if_neg hdnil, hd]
        have hinv : stripNl (d ++ str "\n\n" ++ stripNl e) =
            d ++ str "\n\n" ++ stripNl e := by
          apply stripNl_eq_self
          · rw [head?_append_ne (by simp [hdnil]), head?_append_ne hdnil, ← hd]
            exact stripNl_head
          · rw [getLast?_append_ne he]
            exact stripNl_getLast
        exact ih f l _ hinv

/-- CLAIM C9 — hidden-region stripping: for every release body, the code
removes every delimited hidden region, strips each surviving fragment of
its outer newlines, joins the non-empty fragments with exactly one blank
line, substitutes the replacement string when the join is empty, and trims
the outer edges (when no region is present the body passes through whole,
up to the final replacement and outer trim); the spec example renders
`A, hidden secret, B` as `A\n\nB`. -/
theorem claim9_hidden_region_stripping :
    (∀ body repl : Str, renderDescription body repl = specDescription body repl) ∧
    renderDescription
        (str "A\n" ++ hideBegin ++ str "secret" ++ hideEnd ++ str "\nB")
        (str "replacement") = str "A\n\nB" := by
  constructor
  · intro body repl
    simp only [renderDescription, specDescription]
    by_cases hl : (splitHidden body).length = 1
    · rw [if_pos hl, if_pos hl]
    · rw [if_neg hl, if_neg hl,
        descFold_eq_joinInto _ _ _ _ (by rfl)]
  · decide

theorem stripStep_skip_docs_changelog (ds : Str) (sup : Bool)
    (acc : List (Str × List SelCommit)) (c : CommitInfo)
    (h : lowerStr (resolvedScope (str "docs") c.head ds) = str "changelog") :
    stripStep (str "docs") ds sup acc c = acc := by
  unfold stripStep
  by_cases hp : isPre (str "docs") c.head = true
  · rw [if_pos hp]
    by_cases hsc : pyFindScope (str "docs") c.head = []
    · rw [resolvedScope, if_pos hsc] at h
      cases sup
      · simp [hsc, h]
      · simp [hsc]
    · rw [resolvedScope, if_neg hsc] at h
      simp [hsc, h]
  · rw [if_neg hp]

/-- CLAIM C6 — docs/changelog suppression: with the type pattern exactly
`docs`, a commit whose resolved scope equals `changelog` case-insensitively
contributes nothing to the classifier output, for any suppress-unscoped
flag: deleting it from the commit list leaves `strip_commits` unchanged. -/
theorem claim6_docs_changelog_suppression
    (cs1 cs2 : List CommitInfo) (c : CommitInfo) (ds : Str) (sup : Bool)
    (h : lowerStr (resolvedScope (str "docs") c.head ds) = str "changelog") :
    strip_commits (cs1 ++ c :: cs2) (str "docs") ds sup =
      strip_commits (cs1 ++ cs2) (str "docs") ds sup := by
  unfold strip_commits
  rw [List.foldl_append, List.foldl_append, List.foldl_cons,
    stripStep_skip_docs_changelog ds sup _ c h]

/-- Witness for C6: a `docs(ChangeLog)` commit disappears even with
`suppress_unscoped = true`. -/
theorem claim6_witness :
    lowerStr (resolvedScope (str "docs")
        (str "docs(ChangeLog): regen") (str "general")) = str "changelog" ∧
    strip_commits [⟨str "fix: y", str "s0", str "u0", []⟩,
        ⟨str "docs(ChangeLog): regen", str "s1", str "u1", []⟩] (str "docs")
        (str "general") true =
      strip_commits [⟨str "fix: y", str "s0", str "u0", []⟩] (str "docs")
        (str "general") true := by
  refine ⟨by decide, ?_⟩
  have h := claim6_docs_changelog_suppression
    [⟨str "fix: y", str "s0", str "u0", []⟩] []
    ⟨str "docs(ChangeLog): regen", str "s1", str "u1", []⟩
    (str "general") true (by decide)
  simpa using h

/-- CLAIM C10 — prefix-only type matching: a head that merely begins with
the type keyword is classified (no delimiter required after the keyword),
bucketed under the resolved scope with subject `subjectSub`; and when no
colon follows the matched prefix the subject is the whole unmodified head. -/
theorem claim10_prefix_only_matching
    (t ds : Str) (sup : Bool) (c : CommitInfo)
    (hmatch : isPre t c.head = true)
    (hsup : ¬(pyFindScope t c.head = [] ∧ sup = true))
    (hdocs : ¬(lowerStr (resolvedScope t c.head ds) = str "changelog" ∧
        t = str "docs")) :
    strip_commits [c] t ds sup =
      [(resolvedScope t c.head ds, [⟨subjectSub t c.head, c⟩])] ∧
    (colonFollows t c.head = false → subjectSub t c.head = c.head) := by
  constructor
  · have hstep : stripStep t ds sup [] c =
        scopesAdd [] (resolvedScope t c.head ds) ⟨subjectSub t c.head, c⟩ := by
      unfold stripStep
      rw [if_pos hmatch]
      by_cases hsc : pyFindScope t c.head = []
      · have hsupf : sup = false := by
          cases sup
          · rfl
          · exact absurd ⟨hsc, rfl⟩ hsup
        subst hsupf
        rw [resolvedScope, if_pos hsc] at hdocs ⊢
        simp only [hsc, Bool.false_eq_true, and_false, if_false, reduceIte,
          if_true]
        rw [if_neg hdocs]
      · rw [resolvedScope, if_neg hsc] at hdocs ⊢
        simp only [hsc, false_and, if_false, reduceIte]
        rw [if_neg hdocs]
    unfold strip_commits
    rw [List.foldl_cons, hstep, List.foldl_nil]
    rfl
  · intro hnc
    rw [colonFollows, Bool.or_eq_false_iff] at hnc
    obtain ⟨h1, h2⟩ := hnc
    have htp : tryParen (c.head.drop t.length) = none := by
      cases h : tryParen (c.head.drop t.length)
      · rfl
      · rw [h] at h1; simp at h1
    have hmc : matchColonTail (c.head.drop t.length) = none := by
      cases h : matchColonTail (c.head.drop t.length)
      · rfl
      · rw [h] at h2; simp at h2
    simp only [subjectSub]
    rw [if_pos hmatch, htp, hmc]

/-- Witness for C10: `feature: add X` begins with `feat` (no delimiter after
the keyword), is bucketed under the default scope, and — since the regex
finds no colon directly after `feat` — its subject is the whole head. -/
theorem claim10_witness :
    strip_commits [⟨str "feature: add X", str "s1", str "u1", []⟩]
        (str "feat") (str "general") false =
      [(str "general",
        [⟨str "feature: add X", ⟨str "feature: add X", str "s1", str "u1", []⟩⟩])] ∧
    subjectSub (str "feat") (str "feature: add X") = str "feature: add X" := by
  have h := claim10_prefix_only_matching (str "feat") (str "general") false
    ⟨str "feature: add X", str "s1", str "u1", []⟩
    (by decide) (by decide) (by decide)
  refine ⟨h.1.trans (by decide), h.2 (by decide)⟩


/-! ### C3 — the truncation splice -/

/-- CLAIM C3 counterexample: on the spec example — head
`feat(x): very long subject tha...` with continuation `...t continues` —
the code yields the subject `very long subject tha t continues` (the splice
inserts a space between the truncated head and the continuation), not the
`very long subject that continues` the claim asserts. -/
theorem claim3_counterexample :
    strip_commits
        [⟨processHead (str "feat(x): very long subject tha...\n\n...t continues"),
          str "s1", str "u1", []⟩] (str "feat") (str "general") false =
      [(str "x",
        [⟨str "very long subject tha t continues",
          ⟨str "feat(x): very long subject tha t continues",
            str "s1", str "u1", []⟩⟩])] ∧
    ¬ str "very long subject tha t continues" =
        str "very long subject that continues" := by
  constructor
  · decide
  · decide

/-- CLAIM C3 (amended) — truncation splice: when the first paragraph of a
commit message ends with `...` and the second paragraph starts with `...`,
the head becomes the truncated head and the continuation first line, both
stripped of their ellipses, joined WITH A SINGLE INSERTED SPACE, and any
double space collapsed to one. -/
theorem claim3_truncation_splice (message : Str)
    (h1 : (pySplitOn (str "\n\n") message).headI.drop
        ((pySplitOn (str "\n\n") message).headI.length - 3) = str "...")
    (h2 : 1 < (pySplitOn (str "\n\n") message).length)
    (h3 : ((pySplitOn (str "\n\n") message).getI 1).take 3 = str "...") :
    processHead message =
      spliceSubjectLine (pySplitOn (str "\n\n") message).headI
        ((pySplitOn (str "\n")
          ((pySplitOn (str "\n\n") message).getI 1)).headI) := by
  simp only [processHead, spliceSubjectLine]
  rw [if_pos ⟨h1, h2⟩, if_pos h3]

/-- Witness for the amended C3 at the spec example. -/
theorem claim3_witness :
    processHead (str "feat(x): very long subject tha...\n\n...t continues") =
      spliceSubjectLine
        ((pySplitOn (str "\n\n")
          (str "feat(x): very long subject tha...\n\n...t continues")).headI)
        ((pySplitOn (str "\n")
          ((pySplitOn (str "\n\n")
            (str "feat(x): very long subject tha...\n\n...t continues")).getI 1)).headI) ∧
    processHead (str "feat(x): very long subject tha...\n\n...t continues") =
      str "feat(x): very long subject tha t continues" :=
  ⟨claim3_truncation_splice _ (by decide) (by decide) (by decide), by decide⟩

/-! ### C4 — empty-release omission -/

/-- CLAIM C4 counterexample: a non-Unreleased release with an empty
description and no matching commits still renders a non-empty entry (its
header), and that entry appears in the assembled document. -/
theorem claim4_counterexample :
    ¬ generate_release_changelog ⟨str "u", [], str "d", str "sha", []⟩ []
        (str "R0") [(str "feat", str "Feature")] (str "general") false [] = [] ∧
    assemble_changelog
        [(str "R0", ⟨str "u", [], str "d", str "sha",
          generate_release_changelog ⟨str "u", [], str "d", str "sha", []⟩ []
            (str "R0") [(str "feat", str "Feature")] (str "general") false []⟩)] =
      titleLine ++ str "\n\n## [R0](u) - d\n\n" ++ signature ++ ['\n'] ∧
    ¬ assemble_changelog
        [(str "R0", ⟨str "u", [], str "d", str "sha",
          generate_release_changelog ⟨str "u", [], str "d", str "sha", []⟩ []
            (str "R0") [(str "feat", str "Feature")] (str "general") false []⟩)] =
      assemble_changelog [] := by
  refine ⟨by decide, by decide, by decide⟩

/-- CLAIM C4 (amended) — empty-release omission: only the synthetic
Unreleased entry with an empty rendered body renders as the empty string;
the assembler drops exactly the empty-content entries; and every
non-Unreleased release renders a non-empty entry (header included), so it
is never omitted, even with an empty body and description. -/
theorem claim4_empty_release_omission :
    (∀ (meta : ReleaseMeta) (cs : List CommitInfo) (parts : List (Str × Str))
      (ds : Str) (sup : Bool) (repl : Str),
      generate_release_body cs parts ds sup = [] →
      generate_release_changelog meta cs (str "Unreleased") parts ds sup repl = []) ∧
    (∀ d : List (Str × ReleaseMeta),
      assemble_changelog d =
        assembleBlocks ((d.map (fun p => p.2.content)).filter (fun c => c ≠ []))) ∧
    (∀ (meta : ReleaseMeta) (cs : List CommitInfo) (tag : Str)
      (parts : List (Str × Str)) (ds : Str) (sup : Bool) (repl : Str),
      ¬ tag = str "Unreleased" →
      ¬ generate_release_changelog meta cs tag parts ds sup repl = []) := by
  refine ⟨?_, ?_, ?_⟩
  · intro meta cs parts ds sup repl hbody
    simp only [generate_release_changelog]
    rw [if_pos ⟨hbody, trivial⟩]
  · intro d
    unfold assemble_changelog assembleBlocks
    have hfold : ∀ (l : List (Str × ReleaseMeta)) (acc : Str),
        l.foldl
          (fun changelog p =>
            if p.2.content ≠ [] then changelog ++ str "\n\n" ++ stripNl p.2.content
            else changelog) acc =
        ((l.map (fun p => p.2.content)).filter (fun c => c ≠ [])).foldl
          (fun changelog b => changelog ++ str "\n\n" ++ stripNl b) acc := by
      intro l
      induction l with
      | nil => intro acc; rfl
      | cons p rest ih =>
        intro acc
        rw [List.foldl_cons, List.map_cons]
        by_cases hc : p.2.content = []
        · rw [if_neg (by simp [hc]), List.filter_cons_of_neg (by simp [hc])]
          exact ih acc
        · rw [if_pos (by simp [hc]), List.filter_cons_of_pos (by simp [hc]),
            List.foldl_cons]
          exact ih _
    rw [hfold]
  · intro meta cs tag parts ds sup repl htag
    simp only [generate_release_changelog]
    rw [if_neg (fun h => htag h.2)]
    intro h
    have := congrArg List.length h
    simp [List.length_append, str] at this

/-- Witness for the amended C4: the Unreleased entry of an empty bucket is
dropped while an empty regular release keeps its header in the document. -/
theorem claim4_witness :
    generate_release_changelog emptyMeta [] (str "Unreleased")
        [(str "feat", str "Feature")] (str "general") false (str "N/A") = [] ∧
    assemble_changelog
        [(str "Unreleased", emptyMeta), (str "R0", ⟨str "u", [], str "d", str "s",
          str "## [R0](u) - d"⟩)] =
      assembleBlocks [str "## [R0](u) - d"] ∧
    ¬ generate_release_changelog emptyMeta [] (str "R0")
        [(str "feat", str "Feature")] (str "general") false [] = [] := by
  refine ⟨claim4_empty_release_omission.1 emptyMeta [] _ _ _ _ (by decide),
    ?_, claim4_empty_release_omission.2.2 emptyMeta [] _ _ _ _ _ (by decide)⟩
  have h := claim4_empty_release_omission.2.1
    [(str "Unreleased", emptyMeta), (str "R0", ⟨str "u", [], str "d", str "s",
      str "## [R0](u) - d"⟩)]
  rw [h]
  decide

/-! ### Dictionary lemmas -/

theorem dlookup_dinsert {α : Type} (d : List (Str × α)) (k x : Str) (v : α) :
    dlookup (dinsert d k v) x = if k = x then some v else dlookup d x := by
  induction d with
  | nil =>
    simp only [dinsert, dlookup]
  | cons p rest ih =>
    obtain ⟨k1, w⟩ := p
    rw [dinsert]
    by_cases h1 : k1 = k
    · subst h1
      rw [if_pos rfl]
      simp only [dlookup]
      by_cases h2 : k1 = x
      · rw [if_pos h2, if_pos h2]
      · rw [if_neg h2, if_neg h2, if_neg h2]
    · rw [if_neg h1]
      simp only [dlookup]
      by_cases h2 : k1 = x
      · have hkx : ¬ k = x := fun h => h1 (h.trans h2.symm).symm
        rw [if_pos h2, if_neg hkx, if_pos h2]
      · rw [if_neg h2, if_neg h2, ih]

theorem dinsert_of_lookup_none {α : Type} (d : List (Str × α)) (k : Str) (v : α)
    (h : dlookup d k = none) : dinsert d k v = d ++ [(k, v)] := by
  induction d with
  | nil => rfl
  | cons p rest ih =>
    obtain ⟨k1, w⟩ := p
    rw [dlookup] at h
    by_cases h1 : k1 = k
    · rw [if_pos h1] at h
      exact absurd h (by simp)
    · rw [if_neg h1] at h
      rw [dinsert, if_neg h1, List.cons_append, ih h]

/-! ### C7 — malformed-document soft failure -/

/-- CLAIM C7 — malformed-document soft failure: a non-empty document that
does not both start with the title line and end with the signature line
plus newline parses to an empty mapping with a warning; the empty document
parses to an empty mapping with no warning. -/
theorem claim7_malformed_document :
    (∀ doc : Str, ¬ doc = [] →
      ¬(isPre titleLine doc = true ∧ isSuf (signature ++ ['\n']) doc = true) →
      analyze_changelog doc = ([], [warnFormat])) ∧
    analyze_changelog [] = ([], []) := by
  constructor
  · intro doc hne hmal
    unfold analyze_changelog
    rw [if_neg hmal, if_pos hne]
  · rfl

/-- Witness for C7 at a concrete malformed document. -/
theorem claim7_witness :
    analyze_changelog (str "not a changelog") = ([], [warnFormat]) ∧
    analyze_changelog [] = ([], []) :=
  ⟨claim7_malformed_document.1 _ (by decide) (by decide),
    claim7_malformed_document.2⟩

/-! ### C2 — the eligible-for-regeneration set -/

theorem mem_regenFold (prior : List (Str × Str)) :
    ∀ (ts acc : List Str) (x : Str),
      x ∈ ts.foldl
          (fun acc tn =>
            if (dlookup prior tn).isNone ∧ ¬tn ∈ acc then acc ++ [tn] else acc)
          acc ↔
        x ∈ acc ∨ (x ∈ ts ∧ dlookup prior x = none) := by
  intro ts
  induction ts with
  | nil => intro acc x; simp
  | cons t rest ih =>
    intro acc x
    rw [List.foldl_cons, ih]
    have hstep : x ∈ (if (dlookup prior t).isNone ∧ ¬t ∈ acc
        then acc ++ [t] else acc) ↔
        x ∈ acc ∨ (x = t ∧ dlookup prior t = none) := by
      by_cases hc : (dlookup prior t).isNone ∧ ¬t ∈ acc
      · rw [if_pos hc]
        simp only [List.mem_append, List.mem_singleton]
        constructor
        · rintro (h | h)
          · exact Or.inl h
          · exact Or.inr ⟨h, Option.isNone_iff_eq_none.mp hc.1⟩
        · rintro (h | h)
          · exact Or.inl h
          · exact Or.inr h.1
      · rw [if_neg hc]
        constructor
        · exact Or.inl
        · rintro (h | ⟨rfl, hnone⟩)
          · exact h
          · rcases not_and_or.mp hc with h1 | h1
            · exact absurd (Option.isNone_iff_eq_none.mpr hnone) h1
            · exact not_not.mp h1
    rw [hstep]
    constructor
    · rintro ((h | ⟨rfl, hn⟩) | h)
      · exact Or.inl h
      · exact Or.inr ⟨List.mem_cons_self _ _, hn⟩
      · exact Or.inr ⟨List.mem_cons_of_mem t h.1, h.2⟩
    · rintro (h | ⟨hm, hnone⟩)
      · exact Or.inl (Or.inl h)
      · rcases List.mem_cons.mp hm with rfl | hm2
        · exact Or.inl (Or.inr ⟨rfl, hnone⟩)
        · exact Or.inr ⟨hm2, hnone⟩

/-- CLAIM C2 — eligible-for-regeneration set: membership in
`regenerate_releases` is exactly: among the first `regenerate_count` tags
(all of them when the count is negative), or a tag absent from the prior
document, or the synthetic `Unreleased` tag exactly when unreleased commits
are included — in which case the synthetic empty Release entry is seeded. -/
theorem claim2_eligible_set :
    (∀ (tags : List Str) (count : Int) (prior : List (Str × Str)) (flag : Bool)
      (x : Str),
      x ∈ buildRegenerate tags count prior flag ↔
        ((if count < 0 then x ∈ tags else x ∈ tags.take count.toNat) ∨
          (x ∈ tags ∧ dlookup prior x = none) ∨
          (flag = true ∧ x = str "Unreleased"))) ∧
    (∀ inp : GenInputs, inp.unreleased_commits = true →
      (∀ r ∈ inp.rels, ¬ r.tag_name = str "Unreleased") →
      dlookup (initState inp).releases (str "Unreleased") = some emptyMeta) := by
  constructor
  · intro tags count prior flag x
    unfold buildRegenerate
    have hbase : x ∈ (if count < 0 then tags else tags.take count.toNat) ↔
        (if count < 0 then x ∈ tags else x ∈ tags.take count.toNat) := by
      by_cases hc : count < 0
      · rw [if_pos hc, if_pos hc]
      · rw [if_neg hc, if_neg hc]
    by_cases hf : flag = true
    · subst hf
      rw [if_pos rfl, List.mem_append, mem_regenFold, hbase]
      simp only [List.mem_singleton, true_and]
      tauto
    · rw [if_neg hf, mem_regenFold, hbase]
      have : ¬ (flag = true ∧ x = str "Unreleased") := fun h => hf h.1
      tauto
  · intro inp hflag hnames
    have hfold : ∀ (rels : List ReleaseInfo) (init : List (Str × ReleaseMeta)),
        (∀ r ∈ rels, ¬ r.tag_name = str "Unreleased") →
        dlookup init (str "Unreleased") = some emptyMeta →
        dlookup (rels.foldl
          (prepStep inp.tags_sha inp.release_in_changelog
            (buildRegenerate (inp.rels.map (fun r => r.tag_name))
              inp.regenerate_count inp.release_in_changelog
              inp.unreleased_commits)) init) (str "Unreleased") =
          some emptyMeta := by
      intro rels
      induction rels with
      | nil => intro init _ hbase; exact hbase
      | cons r rest ih =>
        intro init h hbase
        rw [List.foldl_cons]
        refine ih _ (fun q hq => h q (List.mem_cons_of_mem r hq)) ?_
        simp only [prepStep]
        rw [dlookup_dinsert, if_neg (h r (List.mem_cons_self r rest)), hbase]
    have hrel : (initState inp).releases =
        inp.rels.foldl
          (prepStep inp.tags_sha inp.release_in_changelog
            (buildRegenerate (inp.rels.map (fun r => r.tag_name))
              inp.regenerate_count inp.release_in_changelog
              inp.unreleased_commits))
          [(str "Unreleased", emptyMeta)] := by
      simp [initState, prepReleases, hflag]
    rw [hrel]
    exact hfold inp.rels _ hnames (by rw [dlookup, if_pos rfl])

/-- Witness for C2 on a concrete configuration. -/
theorem claim2_witness :
    ((str "R2") ∈ buildRegenerate [str "R2", str "R1", str "R0"] 1
        [(str "R0", str "b0")] true ↔
      ((if (1 : Int) < 0 then (str "R2") ∈ [str "R2", str "R1", str "R0"]
          else (str "R2") ∈ List.take (1 : Int).toNat [str "R2", str "R1", str "R0"]) ∨
        ((str "R2") ∈ [str "R2", str "R1", str "R0"] ∧
          dlookup [(str "R0", str "b0")] (str "R2") = none) ∨
        (true = true ∧ (str "R2") = str "Unreleased"))) ∧
    buildRegenerate [str "R2", str "R1", str "R0"] 1 [(str "R0", str "b0")] true =
      [str "R2", str "R1", str "Unreleased"] := by
  refine ⟨claim2_eligible_set.1 _ _ _ _ _, by decide⟩

/-! ### C1 — commit-stream partitioning on the spec example shape -/

/-- CLAIM C1 — commit-stream partitioning: for releases R1 (tag commit C3)
and R0 (tag commit C1) and commits [C4, C3, C2, C1] newest first, with every
pull-request resolution succeeding: when all releases are eligible
(`regenerate_count = -1`) the rendered buckets are Unreleased=[C4],
R1=[C3,C2], R0=[C1]; with `regenerate_count = 1` and R0 present in the prior
document only Unreleased and R1 are rendered (with those same buckets) and
R0 keeps its block from the prior document. -/
theorem claim1_commit_partitioning
    (R1 R0 : ReleaseInfo) (k1 k2 k3 k4 : CommitData)
    (prior : List (Str × Str)) (b0 : Str)
    (ps : CommitData → List (Str × Str))
    (parts : List (Str × Str)) (ds : Str) (sup : Bool) (repl : Str)
    (hU1 : ¬ R1.tag_name = str "Unreleased")
    (hU0 : ¬ R0.tag_name = str "Unreleased")
    (h10 : ¬ R1.tag_name = R0.tag_name)
    (h01 : ¬ R0.tag_name = R1.tag_name)
    (hs3 : ¬ k3.sha = []) (hs1 : ¬ k1.sha = []) (hs13 : ¬ k1.sha = k3.sha)
    (hs4 : ¬ k4.sha = []) (hs43 : ¬ k4.sha = k3.sha) (hs41 : ¬ k4.sha = k1.sha)
    (hs2 : ¬ k2.sha = []) (hs23 : ¬ k2.sha = k3.sha) (hs21 : ¬ k2.sha = k1.sha)
    (hprior : dlookup prior R0.tag_name = some b0) :
    ((runGetData (fun c => Except.ok (ps c))
      ⟨[R1, R0], [(R1.tag_name, k3.sha), (R0.tag_name, k1.sha)], prior,
        [k4, k3, k2, k1], -1, true, parts, ds, sup, repl⟩).calls.map
        (fun r => (r.tag, r.bucket)) =
      [(str "Unreleased", [k4]), (R1.tag_name, [k3, k2]),
        (R0.tag_name, [k1])]) ∧
    ((runGetData (fun c => Except.ok (ps c))
      ⟨[R1, R0], [(R1.tag_name, k3.sha), (R0.tag_name, k1.sha)], prior,
        [k4, k3, k2, k1], 1, true, parts, ds, sup, repl⟩).calls.map
        (fun r => (r.tag, r.bucket)) =
      [(str "Unreleased", [k4]), (R1.tag_name, [k3, k2])]) ∧
    ((dlookup (runGetData (fun c => Except.ok (ps c))
      ⟨[R1, R0], [(R1.tag_name, k3.sha), (R0.tag_name, k1.sha)], prior,
        [k4, k3, k2, k1], 1, true, parts, ds, sup, repl⟩).releases
        R0.tag_name).map (fun m => m.content) = some b0) := by
  have hs3e : ¬ [] = k3.sha := fun h => hs3 h.symm
  have hs1e : ¬ [] = k1.sha := fun h => hs1 h.symm
  have hs31 : ¬ k3.sha = k1.sha := fun h => hs13 h.symm
  have hs4e : ¬ [] = k4.sha := fun h => hs4 h.symm
  have hs43e : ¬ k3.sha = k4.sha := fun h => hs43 h.symm
  have hs41e : ¬ k1.sha = k4.sha := fun h => hs41 h.symm
  have hs2e : ¬ [] = k2.sha := fun h => hs2 h.symm
  have hs23e : ¬ k3.sha = k2.sha := fun h => hs23 h.symm
  have hs21e : ¬ k1.sha = k2.sha := fun h => hs21 h.symm
  have hU1e : ¬ str "Unreleased" = R1.tag_name := fun h => hU1 h.symm
  have hU0e : ¬ str "Unreleased" = R0.tag_name := fun h => hU0 h.symm
  have hprisome : (dlookup prior R0.tag_name).isSome = true := by
    rw [hprior]; rfl
  refine ⟨?_, ?_, ?_⟩ <;>
    simp [runGetData, initState, buildRegenerate, prepReleases, prepStep,
      buildShaMap, genLoop, genPost, renderOf, get_release_content, grcLoop,
      dlookup, dinsert, pyRemove, setContentD, emptyMeta, hprior,
      hU1, hU0, h10, h01, hU1e, hU0e, hs3, hs1, hs13, hs31, hs4, hs43, hs41,
      hs2, hs23, hs21, hs3e, hs1e, hs4e, hs43e, hs41e, hs2e, hs23e, hs21e]

/-- Witness for C1 at a fully concrete instance of the example shape. -/
theorem claim1_witness :
    ((runGetData (fun _ => Except.ok [])
      ⟨[⟨str "R1", str "u1", str "b1", str "d1"⟩,
        ⟨str "R0", str "u0", str "b0", str "d0"⟩],
        [(str "R1", str "c3"), (str "R0", str "c1")],
        [(str "R0", str "## [R0] prior")],
        [⟨str "c4", str "m4", str "w4"⟩, ⟨str "c3", str "m3", str "w3"⟩,
          ⟨str "c2", str "m2", str "w2"⟩, ⟨str "c1", str "m1", str "w1"⟩],
        -1, true, [], str "general", false, str "na"⟩).calls.map
        (fun r => (r.tag, r.bucket)) =
      [(str "Unreleased", [⟨str "c4", str "m4", str "w4"⟩]),
        (str "R1", [⟨str "c3", str "m3", str "w3"⟩,
          ⟨str "c2", str "m2", str "w2"⟩]),
        (str "R0", [⟨str "c1", str "m1", str "w1"⟩])]) ∧
    ((runGetData (fun _ => Except.ok [])
      ⟨[⟨str "R1", str "u1", str "b1", str "d1"⟩,
        ⟨str "R0", str "u0", str "b0", str "d0"⟩],
        [(str "R1", str "c3"), (str "R0", str "c1")],
        [(str "R0", str "## [R0] prior")],
        [⟨str "c4", str "m4", str "w4"⟩, ⟨str "c3", str "m3", str "w3"⟩,
          ⟨str "c2", str "m2", str "w2"⟩, ⟨str "c1", str "m1", str "w1"⟩],
        1, true, [], str "general", false, str "na"⟩).calls.map
        (fun r => (r.tag, r.bucket)) =
      [(str "Unreleased", [⟨str "c4", str "m4", str "w4"⟩]),
        (str "R1", [⟨str "c3", str "m3", str "w3"⟩,
          ⟨str "c2", str "m2", str "w2"⟩])]) ∧
    ((dlookup (runGetData (fun _ => Except.ok [])
      ⟨[⟨str "R1", str "u1", str "b1", str "d1"⟩,
        ⟨str "R0", str "u0", str "b0", str "d0"⟩],
        [(str "R1", str "c3"), (str "R0", str "c1")],
        [(str "R0", str "## [R0] prior")],
        [⟨str "c4", str "m4", str "w4"⟩, ⟨str "c3", str "m3", str "w3"⟩,
          ⟨str "c2", str "m2", str "w2"⟩, ⟨str "c1", str "m1", str "w1"⟩],
        1, true, [], str "general", false, str "na"⟩).releases
        (str "R0")).map (fun m => m.content) = some (str "## [R0] prior")) :=
  claim1_commit_partitioning
    ⟨str "R1", str "u1", str "b1", str "d1"⟩
    ⟨str "R0", str "u0", str "b0", str "d0"⟩
    ⟨str "c1", str "m1", str "w1"⟩ ⟨str "c2", str "m2", str "w2"⟩
    ⟨str "c3", str "m3", str "w3"⟩ ⟨str "c4", str "m4", str "w4"⟩
    [(str "R0", str "## [R0] prior")] (str "## [R0] prior")
    (fun _ => []) [] (str "general") false (str "na")
    (by decide) (by decide) (by decide) (by decide) (by decide) (by decide)
    (by decide) (by decide) (by decide) (by decide) (by decide) (by decide)
    (by decide) (by decide)

/-! ### C8 — the partial-success failure policy -/

theorem lastGood_append (a b : List CallRec) (t : Str) :
    lastGood (a ++ b) t =
      match lastGood b t with
      | some c => some c
      | none => lastGood a t := by
  induction a with
  | nil =>
    rw [List.nil_append]
    cases lastGood b t <;> rfl
  | cons r rest ih =>
    rw [List.cons_append, lastGood, ih]
    cases hb : lastGood b t with
    | some c => rfl
    | none => rw [lastGood]

theorem badOf_append (a b : List CallRec) :
    badOf (a ++ b) = badOf a ++ badOf b := by
  unfold badOf
  rw [List.filterMap_append]

theorem badOf_mem {calls : List CallRec} {x : Int} (h : x ∈ badOf calls) :
    ¬x = 0 ∧ ¬x = 200 := by
  unfold badOf at h
  rw [List.mem_filterMap] at h
  obtain ⟨r, _, hr⟩ := h
  by_cases hc : r.status ≠ 0 ∧ r.status ≠ 200
  · rw [if_pos hc] at hr
    cases hr
    exact hc
  · rw [if_neg hc] at hr
    exact absurd hr (by simp)

theorem dlookup_setContentD (d : List (Str × ReleaseMeta)) (t c x : Str) :
    dlookup (setContentD d t c) x =
      if t = x then (dlookup d x).map (setC c) else dlookup d x := by
  by_cases ht : t = x
  · rw [if_pos ht]
    subst ht
    induction d with
    | nil => rfl
    | cons p rest ih =>
      obtain ⟨k, v⟩ := p
      have hstep : setContentD ((k, v) :: rest) t c =
          (if k = t then (k, setC c v) else (k, v)) :: setContentD rest t c := by
        simp [setContentD]
      rw [hstep]
      by_cases hk : k = t
      · rw [if_pos hk, dlookup, if_pos hk, dlookup, if_pos hk]
        rfl
      · rw [if_neg hk, dlookup, if_neg hk, dlookup, if_neg hk, ih]
  · rw [if_neg ht]
    induction d with
    | nil => rfl
    | cons p rest ih =>
      obtain ⟨k, v⟩ := p
      have hstep : setContentD ((k, v) :: rest) t c =
          (if k = t then (k, setC c v) else (k, v)) :: setContentD rest t c := by
        simp [setContentD]
      rw [hstep]
      by_cases hk : k = t
      · have hkx : ¬ k = x := fun h => ht (hk.symm.trans h)
        rw [if_pos hk, dlookup, if_neg hkx, dlookup, if_neg hkx, ih]
      · rw [if_neg hk, dlookup, dlookup, ih]

theorem evolvesW_nil {st st2 : GenState} (h1 : st2.calls = st.calls)
    (h2 : st2.errors = st.errors) (h3 : st2.releases = st.releases) :
    EvolvesW [] st st2 := by
  refine ⟨by rw [h1, List.append_nil], by rw [h2]; exact (List.append_nil _).symm,
    Or.inl rfl, ?_⟩
  intro t
  rw [h3]
  rfl

theorem evolvesW_trans_good {nc1 nc2 : List CallRec} {s1 s2 s3 : GenState}
    (h1 : EvolvesW nc1 s1 s2) (h2 : EvolvesW nc2 s2 s3)
    (hgood : badOf nc1 = []) : EvolvesW (nc1 ++ nc2) s1 s3 := by
  obtain ⟨hc1, he1, _, hr1⟩ := h1
  obtain ⟨hc2, he2, hf2, hr2⟩ := h2
  refine ⟨?_, ?_, ?_, ?_⟩
  · rw [hc2, hc1, List.append_assoc]
  · simp [he2, he1, badOf_append, hgood]
  · rcases hf2 with h | ⟨s, hs, hsel, r, hlast, hst, hcont⟩
    · left
      rw [badOf_append, hgood, List.nil_append, h]
    · right
      refine ⟨s, ?_, hsel, r, ?_, hst, hcont⟩
      · rw [badOf_append, hgood, List.nil_append]
        exact hs
      · rw [List.getLast?_append, hlast]
        rfl
  · intro t
    rw [lastGood_append]
    cases hb : lastGood nc2 t with
    | some c2 =>
      have hthis : dlookup s3.releases t =
          Option.map (setC c2) (dlookup s2.releases t) := by
        have h0 := hr2 t
        rw [hb] at h0
        exact h0
      show dlookup s3.releases t = Option.map (setC c2) (dlookup s1.releases t)
      rw [hthis, hr1 t]
      cases ha : lastGood nc1 t with
      | some c1 =>
        show Option.map (setC c2) (Option.map (setC c1) (dlookup s1.releases t)) =
          Option.map (setC c2) (dlookup s1.releases t)
        rw [Option.map_map]
        congr 1
      | none => rfl
    | none =>
      have hthis : dlookup s3.releases t = dlookup s2.releases t := by
        have h0 := hr2 t
        rw [hb] at h0
        exact h0
      rw [hthis]
      exact hr1 t

theorem evolvesW_good_step {st st2 : GenState} {tag : Str}
    {bucket : List CommitData} {content : Str} {status : Int}
    (hgood : status = 0 ∨ status = 200)
    (hc : st2.calls = st.calls ++ [⟨tag, bucket, content, status⟩])
    (he : st2.errors = st.errors)
    (hr : st2.releases = setContentD st.releases tag content) :
    EvolvesW [⟨tag, bucket, content, status⟩] st st2 := by
  have hbad : badOf [(⟨tag, bucket, content, status⟩ : CallRec)] = [] := by
    rcases hgood with h | h <;> simp [badOf, h]
  refine ⟨hc, by rw [he, hbad, List.append_nil], Or.inl hbad, ?_⟩
  intro t
  have hlg : lastGood [(⟨tag, bucket, content, status⟩ : CallRec)] t =
      if tag = t then some content else none := by
    rcases hgood with h | h <;> simp [lastGood, h]
  rw [hr, dlookup_setContentD, hlg]
  by_cases ht : tag = t
  · rw [if_pos ht, if_pos ht]
  · rw [if_neg ht, if_neg ht]

theorem evolvesW_bad_step {st st2 : GenState} {tag : Str}
    {bucket : List CommitData} {content : Str} {status : Int}
    (hbadst : ¬status = 0 ∧ ¬status = 200) (hcont : content = [])
    (hc : st2.calls = st.calls ++ [⟨tag, bucket, content, status⟩])
    (he : st2.errors = st.errors ++ [status])
    (hsel : st2.selected = [])
    (hr : st2.releases = st.releases) :
    EvolvesW [⟨tag, bucket, content, status⟩] st st2 := by
  have hbad : badOf [(⟨tag, bucket, content, status⟩ : CallRec)] = [status] := by
    simp [badOf, hbadst.1, hbadst.2]
  refine ⟨hc, by rw [he, hbad],
    Or.inr ⟨status, hbad, hsel, ⟨tag, bucket, content, status⟩, rfl, rfl, hcont⟩,
    ?_⟩
  intro t
  have hlg : lastGood [(⟨tag, bucket, content, status⟩ : CallRec)] t = none := by
    simp [lastGood, hbadst.1, hbadst.2]
  rw [hlg, hr]

theorem genLoop_evolves
    (render : List (Str × ReleaseMeta) → Str → List CommitData → Str × Int)
    (shaMap : List (Str × Str))
    (Hrender : ∀ rels tag cs, ¬(render rels tag cs).2 = 0 →
      (render rels tag cs).1 = []) :
    ∀ (cs : List CommitData) (st : GenState),
      ∃ nc, EvolvesW nc st (genLoop render shaMap cs st) := by
  intro cs
  induction cs with
  | nil => intro st; exact ⟨[], evolvesW_nil rfl rfl rfl⟩
  | cons c rest ih =>
    intro st
    rw [genLoop]
    cases hlook : dlookup shaMap c.sha with
    | none =>
      obtain ⟨nc, h⟩ := ih { st with selected := st.selected ++ [c] }
      exact ⟨nc, h⟩
    | some boundTag =>
      dsimp only
      by_cases hcur : st.cur ∈ st.regen
      · rw [if_pos hcur]
        by_cases hbad : (render st.releases st.cur st.selected).2 ≠ 0 ∧
            (render st.releases st.cur st.selected).2 ≠ 200
        · rw [if_pos hbad]
          exact ⟨[⟨st.cur, st.selected, (render st.releases st.cur st.selected).1,
            (render st.releases st.cur st.selected).2⟩],
            evolvesW_bad_step hbad (Hrender _ _ _ hbad.1) rfl rfl rfl rfl⟩
        · rw [if_neg hbad]
          have hgood : (render st.releases st.cur st.selected).2 = 0 ∨
              (render st.releases st.cur st.selected).2 = 200 := by
            rcases not_and_or.mp hbad with h | h
            · exact Or.inl (not_not.mp h)
            · exact Or.inr (not_not.mp h)
          by_cases hlen : (pyRemove st.regen st.cur).length = 0
          · rw [if_pos hlen]
            exact ⟨[⟨st.cur, st.selected, (render st.releases st.cur st.selected).1,
              (render st.releases st.cur st.selected).2⟩],
              evolvesW_good_step hgood rfl rfl rfl⟩
          · rw [if_neg hlen]
            obtain ⟨nc2, h2⟩ := ih
              ⟨setContentD st.releases st.cur
                  (render st.releases st.cur st.selected).1,
                pyRemove st.regen st.cur, boundTag, [c],
                st.calls ++ [⟨st.cur, st.selected,
                  (render st.releases st.cur st.selected).1,
                  (render st.releases st.cur st.selected).2⟩],
                st.errors⟩
            have hbadnil : badOf [(⟨st.cur, st.selected,
                (render st.releases st.cur st.selected).1,
                (render st.releases st.cur st.selected).2⟩ : CallRec)] = [] := by
              rcases hgood with h | h <;> simp [badOf, h]
            exact ⟨_, evolvesW_trans_good
              (@evolvesW_good_step st
                ⟨setContentD st.releases st.cur
                    (render st.releases st.cur st.selected).1,
                  pyRemove st.regen st.cur, boundTag, [c],
                  st.calls ++ [⟨st.cur, st.selected,
                    (render st.releases st.cur st.selected).1,
                    (render st.releases st.cur st.selected).2⟩],
                  st.errors⟩
                st.cur st.selected (render st.releases st.cur st.selected).1
                (render st.releases st.cur st.selected).2 hgood rfl rfl rfl)
              h2 hbadnil⟩
      · rw [if_neg hcur]
        obtain ⟨nc, h⟩ := ih { st with cur := boundTag, selected := [c] }
        exact ⟨nc, h⟩

theorem genPost_evolves
    (render : List (Str × ReleaseMeta) → Str → List CommitData → Str × Int)
    (Hrender : ∀ rels tag cs, ¬(render rels tag cs).2 = 0 →
      (render rels tag cs).1 = [])
    (st : GenState) : ∃ nc, EvolvesW nc st (genPost render st) := by
  unfold genPost
  by_cases hc : st.selected ≠ [] ∧ st.cur ∈ st.regen
  · rw [if_pos hc]
    by_cases hbad : (render st.releases st.cur st.selected).2 ≠ 0 ∧
        (render st.releases st.cur st.selected).2 ≠ 200
    · rw [if_pos hbad]
      exact ⟨[⟨st.cur, st.selected, (render st.releases st.cur st.selected).1,
        (render st.releases st.cur st.selected).2⟩],
        evolvesW_bad_step hbad (Hrender _ _ _ hbad.1) rfl rfl rfl rfl⟩
    · rw [if_neg hbad]
      have hgood : (render st.releases st.cur st.selected).2 = 0 ∨
          (render st.releases st.cur st.selected).2 = 200 := by
        rcases not_and_or.mp hbad with h | h
        · exact Or.inl (not_not.mp h)
        · exact Or.inr (not_not.mp h)
      exact ⟨[⟨st.cur, st.selected, (render st.releases st.cur st.selected).1,
        (render st.releases st.cur st.selected).2⟩],
        evolvesW_good_step hgood rfl rfl rfl⟩
  · rw [if_neg hc]
    exact ⟨[], evolvesW_nil rfl rfl rfl⟩

theorem get_release_content_bad (rels : List (Str × ReleaseMeta))
    (parts : List (Str × Str)) (ds : Str) (sup : Bool) (repl : Str)
    (pulls : CommitData → Except Int (List (Str × Str))) (tag : Str)
    (cs : List CommitData)
    (h : ¬(get_release_content rels parts ds sup repl pulls tag cs).2 = 0) :
    (get_release_content rels parts ds sup repl pulls tag cs).1 = [] := by
  unfold get_release_content at h ⊢
  cases hg : grcLoop pulls cs [] with
  | error s => rfl
  | ok sel =>
    rw [hg] at h
    exact absurd rfl h

theorem runGetData_evolves (pulls : CommitData → Except Int (List (Str × Str)))
    (inp : GenInputs) :
    ∃ nc, EvolvesW nc (initState inp) (runGetData pulls inp) := by
  have Hrender : ∀ rels tag cs, ¬((renderOf inp pulls) rels tag cs).2 = 0 →
      ((renderOf inp pulls) rels tag cs).1 = [] :=
    fun rels tag cs h => get_release_content_bad _ _ _ _ _ _ _ _ h
  unfold runGetData
  dsimp only
  by_cases hlen : 0 < (initState inp).regen.length
  · rw [if_pos hlen]
    obtain ⟨nc1, h1⟩ := genLoop_evolves _ (buildShaMap (initState inp).releases)
      Hrender inp.commits (initState inp)
    rcases h1.2.2.1 with hzero | hfail
    · obtain ⟨nc2, h2⟩ := genPost_evolves _ Hrender
        (genLoop (renderOf inp pulls) (buildShaMap (initState inp).releases)
          inp.commits (initState inp))
      exact ⟨nc1 ++ nc2, evolvesW_trans_good h1 h2 hzero⟩
    · obtain ⟨s, hs, hsel, _⟩ := hfail
      have hpost : genPost (renderOf inp pulls)
          (genLoop (renderOf inp pulls) (buildShaMap (initState inp).releases)
            inp.commits (initState inp)) =
          genLoop (renderOf inp pulls) (buildShaMap (initState inp).releases)
            inp.commits (initState inp) := by
        unfold genPost
        rw [if_neg (fun hcond => hcond.1 hsel)]
      rw [hpost]
      exact ⟨nc1, h1⟩
  · rw [if_neg hlen]
    exact genPost_evolves _ Hrender _

/-- CLAIM C8 — partial-success failure policy: whenever a run of `get_data`
ends with a non-empty error log (an API error with status other than 0 or
200 was раised while resolving pull requests during a render), then exactly
one failure was logged, with its status code; the failing call is the last
render call and produced empty content; the in-progress bucket was
discarded; releases rendered before the failure keep their newly rendered
content; and every other release keeps the content it had after the
metadata phase (its prior block, or empty) — the run terminates normally. -/
theorem claim8_partial_success
    (pulls : CommitData → Except Int (List (Str × Str))) (inp : GenInputs)
    (herr : ¬(runGetData pulls inp).errors = []) :
    AbortSpec inp (runGetData pulls inp) := by
  obtain ⟨nc, hcalls, herrs, hfail, hrel⟩ := runGetData_evolves pulls inp
  have hnc : (runGetData pulls inp).calls = nc := by
    rw [hcalls]
    exact List.nil_append nc
  have herrs2 : (runGetData pulls inp).errors = badOf nc := by
    rw [herrs]
    exact List.nil_append _
  rcases hfail with hzero | ⟨s, hs, hsel, r, hlast, hst, hcont⟩
  · rw [herrs2, hzero] at herr
    exact absurd rfl herr
  · have hmem : s ∈ badOf nc := by rw [hs]; exact List.mem_singleton.mpr rfl
    obtain ⟨hs0, hs200⟩ := badOf_mem hmem
    refine ⟨⟨s, by rw [herrs2, hs], hs0, hs200, hsel, r, by rw [hnc]; exact hlast,
      hst, hcont⟩, ?_, ?_⟩
    · intro t hnone
      have := hrel t
      rw [hnc] at hnone
      rw [hnone] at this
      exact this
    · intro t c hsome
      have := hrel t
      rw [hnc] at hsome
      rw [hsome] at this
      exact this

/-- Witness for C8: a pull-request failure with status 403 while rendering
R1 aborts the rest of the run. -/
theorem claim8_witness :
    AbortSpec
      ⟨[⟨str "R1", str "u1", str "b1", str "d1"⟩,
        ⟨str "R0", str "u0", str "b0", str "d0"⟩],
        [(str "R1", str "c3"), (str "R0", str "c1")],
        [(str "R0", str "## [R0] prior")],
        [⟨str "c4", str "m4", str "w4"⟩, ⟨str "c3", str "m3", str "w3"⟩,
          ⟨str "c2", str "m2", str "w2"⟩, ⟨str "c1", str "m1", str "w1"⟩],
        -1, true, [], str "general", false, str "na"⟩
      (runGetData
        (fun c => if c.sha = str "c3" then Except.error 403 else Except.ok [])
        ⟨[⟨str "R1", str "u1", str "b1", str "d1"⟩,
          ⟨str "R0", str "u0", str "b0", str "d0"⟩],
          [(str "R1", str "c3"), (str "R0", str "c1")],
          [(str "R0", str "## [R0] prior")],
          [⟨str "c4", str "m4", str "w4"⟩, ⟨str "c3", str "m3", str "w3"⟩,
            ⟨str "c2", str "m2", str "w2"⟩, ⟨str "c1", str "m1", str "w1"⟩],
          -1, true, [], str "general", false, str "na"⟩) :=
  claim8_partial_success _ _ (by decide)

/-! ### C5 — round-trip machinery: prefixes, occurrences, splitting -/

theorem isPre_append_self (a b : Str) : isPre a (a ++ b) = true := by
  induction a with
  | nil => rfl
  | cons c rest ih =>
    rw [List.cons_append, isPre, if_pos rfl]
    exact ih

theorem isPre_length_le {p s : Str} (h : isPre p s = true) :
    p.length ≤ s.length := by
  induction p generalizing s with
  | nil => simp
  | cons c pr ih =>
    cases s with
    | nil => simp [isPre] at h
    | cons d sr =>
      rw [isPre] at h
      by_cases hc : c = d
      · rw [if_pos hc] at h
        have := ih h
        simp only [List.length_cons]
        omega
      · rw [if_neg hc] at h
        simp at h

theorem isPre_append_split {p a b : Str} (h : isPre p (a ++ b) = true) :
    isPre p a = true ∨
      (a.length < p.length ∧ a = p.take a.length ∧
        isPre (p.drop a.length) b = true) := by
  induction a generalizing p with
  | nil =>
    cases p with
    | nil => exact Or.inl rfl
    | cons c pr => exact Or.inr ⟨by simp, rfl, h⟩
  | cons x ar ih =>
    cases p with
    | nil => exact Or.inl rfl
    | cons c pr =>
      rw [List.cons_append, isPre] at h
      by_cases hc : c = x
      · rw [if_pos hc] at h
        rcases ih h with h2 | ⟨hl, ht, hd⟩
        · left
          rw [isPre, if_pos hc]
          exact h2
        · right
          refine ⟨by simp only [List.length_cons]; omega, ?_, ?_⟩
          · rw [List.length_cons, List.take_succ_cons, hc, ← ht]
          · rw [List.length_cons, List.drop_succ_cons]
            exact hd
      · rw [if_neg hc] at h
        simp at h

theorem isPre_of_le {p a b : Str} (h : isPre p (a ++ b) = true)
    (hl : p.length ≤ a.length) : isPre p a = true := by
  rcases isPre_append_split h with h2 | ⟨hlt, _, _⟩
  · exact h2
  · omega

theorem findOcc_none_iff {sc : Char} {scs : Str} {s : Str} :
    findOcc (sc :: scs) s = none ↔
      ∀ j, isPre (sc :: scs) (s.drop j) = false := by
  induction s with
  | nil =>
    constructor
    · intro _ j
      rw [List.drop_nil]
      rfl
    · intro _
      rfl
  | cons c rest ih =>
    rw [findOcc]
    by_cases hp : isPre (sc :: scs) (c :: rest) = true
    · rw [if_pos hp]
      constructor
      · intro h
        simp at h
      · intro h
        have h0 := h 0
        rw [List.drop_zero, hp] at h0
        simp at h0
    · rw [if_neg hp]
      constructor
      · intro h j
        cases hfo : findOcc (sc :: scs) rest with
        | some i =>
          rw [hfo] at h
          simp at h
        | none =>
          cases j with
          | zero =>
            rw [List.drop_zero]
            exact Bool.eq_false_iff.mpr hp
          | succ n =>
            rw [List.drop_succ_cons]
            exact (ih.mp hfo) n
      · intro h
        have hrest : findOcc (sc :: scs) rest = none :=
          ih.mpr (fun j => by
            have hj := h (j + 1)
            rwa [List.drop_succ_cons] at hj)
        rw [hrest]
        rfl

theorem findOcc_boundary {sc : Char} {scs : Str} (a b : Str)
    (ha : findOcc (sc :: scs) a = none)
    (hov : ∀ k, k < (sc :: scs).length → 0 < k →
      isPre ((sc :: scs).drop k) (sc :: scs) = false) :
    findOcc (sc :: scs) (a ++ (sc :: scs) ++ b) = some a.length := by
  induction a with
  | nil =>
    rw [List.nil_append]
    show findOcc (sc :: scs) (sc :: (scs ++ b)) = some 0
    rw [findOcc, if_pos]
    exact isPre_append_self (sc :: scs) b
  | cons x a2 ih =>
    rw [findOcc] at ha
    have hnp : ¬ isPre (sc :: scs) (x :: a2) = true := by
      intro hp
      rw [if_pos hp] at ha
      simp at ha
    rw [if_neg hnp] at ha
    have ha2 : findOcc (sc :: scs) a2 = none := by
      cases hfo : findOcc (sc :: scs) a2 with
      | none => rfl
      | some i =>
        rw [hfo] at ha
        simp at ha
    show findOcc (sc :: scs) (x :: (a2 ++ (sc :: scs) ++ b)) = some (a2.length + 1)
    rw [findOcc]
    have hhead : ¬ isPre (sc :: scs) (x :: (a2 ++ (sc :: scs) ++ b)) = true := by
      intro hp
      have hp2 : isPre (sc :: scs) ((x :: a2) ++ ((sc :: scs) ++ b)) = true := by
        rw [List.cons_append, ← List.append_assoc]
        exact hp
      rcases isPre_append_split hp2 with h2 | ⟨hlt, _, hdrop⟩
      · exact hnp h2
      · have hle : ((sc :: scs).drop (x :: a2).length).length ≤
            (sc :: scs).length := by
          rw [List.length_drop]
          exact Nat.sub_le _ _
        have h3 := isPre_of_le hdrop hle
        have h4 := hov (x :: a2).length hlt (by simp)
        rw [h4] at h3
        simp at h3
    rw [if_neg hhead, ih ha2]
    rfl

theorem pySplitAux_congr (sc : Char) (scs : Str) :
    ∀ (f1 f2 : Nat) (s : Str), s.length ≤ f1 → s.length ≤ f2 →
      pySplitAux sc scs f1 s = pySplitAux sc scs f2 s := by
  intro f1
  induction f1 with
  | zero =>
    intro f2 s h1 _
    have hs : s = [] := List.eq_nil_of_length_eq_zero (Nat.le_zero.mp h1)
    subst hs
    cases f2 with
    | zero => rfl
    | succ m => rfl
  | succ n ih =>
    intro f2 s h1 h2
    cases f2 with
    | zero =>
      have hs : s = [] := List.eq_nil_of_length_eq_zero (Nat.le_zero.mp h2)
      subst hs
      rfl
    | succ m =>
      show pySplitAux sc scs (n + 1) s = pySplitAux sc scs (m + 1) s
      rw [pySplitAux, pySplitAux]
      cases hfo : findOcc (sc :: scs) s with
      | none => rfl
      | some i =>
        have hdl : (s.drop (i + (sc :: scs).length)).length ≤ n := by
          rw [List.length_drop]
          simp only [List.length_cons]
          omega
        have hdm : (s.drop (i + (sc :: scs).length)).length ≤ m := by
          rw [List.length_drop]
          simp only [List.length_cons]
          omega
        dsimp only
        rw [ih _ _ hdl hdm]

theorem pySplit_none {sc : Char} {scs s : Str}
    (h : findOcc (sc :: scs) s = none) : pySplit sc scs s = [s] := by
  unfold pySplit
  cases hl : s.length with
  | zero => rfl
  | succ n =>
    rw [pySplitAux, h]

theorem pySplit_boundary {sc : Char} {scs : Str} (a b : Str)
    (ha : findOcc (sc :: scs) a = none)
    (hov : ∀ k, k < (sc :: scs).length → 0 < k →
      isPre ((sc :: scs).drop k) (sc :: scs) = false) :
    pySplit sc scs (a ++ (sc :: scs) ++ b) = a :: pySplit sc scs b := by
  unfold pySplit
  have hocc := findOcc_boundary a b ha hov
  cases hl : (a ++ (sc :: scs) ++ b).length with
  | zero =>
    exfalso
    simp [List.length_append] at hl
  | succ n =>
    rw [pySplitAux, hocc]
    dsimp only
    congr 1
    · rw [List.append_assoc]
      exact List.take_left a _
    · have htake : (a ++ (sc :: scs) ++ b).drop (a.length + (sc :: scs).length) = b := by
        rw [show a.length + (sc :: scs).length = (a ++ (sc :: scs)).length by
          rw [List.length_append]]
        exact List.drop_left _ _
      rw [htake]
      apply pySplitAux_congr
      · have : (a ++ (sc :: scs) ++ b).length = n + 1 := hl
        simp only [List.length_append, List.length_cons] at this
        omega
      · exact le_refl _

/-- The block separator has no non-trivial self-overlap: no proper
non-empty suffix of `"\n\n## "` is one of its prefixes. -/
theorem sep_overlap : ∀ k, k < ('\n' :: str "\n## ").length → 0 < k →
    isPre (('\n' :: str "\n## ").drop k) ('\n' :: str "\n## ") = false := by
  decide

/-- No suffix of the block separator is a prefix of the blank line
`"\n\n"` that terminates a changelog body. -/
theorem sep_nn : ∀ k, k < ('\n' :: str "\n## ").length →
    isPre (('\n' :: str "\n## ").drop k) ['\n', '\n'] = false := by
  decide

/-- Appending the final blank line to a separator-free string cannot
create an occurrence of the block separator. -/
theorem findOcc_nn_of_none {s : Str}
    (h : findOcc ('\n' :: str "\n## ") s = none) :
    findOcc ('\n' :: str "\n## ") (s ++ ['\n', '\n']) = none := by
  apply findOcc_none_iff.mpr
  intro j
  by_cases hj : j ≤ s.length
  · rw [List.drop_append_eq_append_drop, Nat.sub_eq_zero_of_le hj,
      List.drop_zero]
    cases hp : isPre ('\n' :: str "\n## ") (s.drop j ++ ['\n', '\n']) with
    | false => rfl
    | true =>
      exfalso
      rcases isPre_append_split hp with h2 | ⟨hlt, _, hdrop⟩
      · have h3 := findOcc_none_iff.mp h j
        rw [h3] at h2
        exact absurd h2 (by simp)
      · have h4 := sep_nn (s.drop j).length hlt
        rw [h4] at hdrop
        exact absurd hdrop (by simp)
  · cases hp : isPre ('\n' :: str "\n## ") ((s ++ ['\n', '\n']).drop j) with
    | false => rfl
    | true =>
      exfalso
      have hlen := isPre_length_le hp
      rw [List.length_drop, List.length_append] at hlen
      have h5 : ('\n' :: str "\n## ").length = 5 := by decide
      have h6 : (['\n', '\n'] : Str).length = 2 := by decide
      rw [h5, h6] at hlen
      omega

/-- Dropping trailing newlines absorbs an appended blank line. -/
theorem dropTrail_append_nn : ∀ {x : Str},
    dropTrail (x ++ ['\n', '\n']) = dropTrail x := by
  intro x
  induction x with
  | nil => rfl
  | cons c r ih =>
    rw [List.cons_append, dropTrail, ih, dropTrail]

/-- A parser segment, starting with its opening bracket, never begins
with the literal `Unreleased`. -/
theorem unreleased_seg (z : Str) :
    isPre (str "Unreleased") ('[' :: z) = false := by
  have h : str "Unreleased" = 'U' :: str "nreleased" := by decide
  rw [h, isPre, if_neg (by decide)]

/-- A segment built from a block pair ends in the pair body's last
character (or the closing bracket), never in a newline. -/
theorem getLast_segOf {p : Str × Str} (h : p.2.getLast? ≠ some '\n') :
    (segOf p).getLast? ≠ some '\n' := by
  rw [segOf, getLast?_append_ne (List.cons_ne_nil ']' p.2)]
  cases hp2 : p.2 with
  | nil => decide
  | cons c r =>
    have heq : (']' :: c :: r : Str) = [']'] ++ (c :: r) := rfl
    rw [heq, getLast?_append_ne (List.cons_ne_nil c r)]
    rw [hp2] at h
    exact h

/-- `strip('\n')` leaves a well-formed segment unchanged. -/
theorem stripNl_segOf {p : Str × Str} (h : p.2.getLast? ≠ some '\n') :
    stripNl (segOf p) = segOf p := by
  apply stripNl_eq_self
  · intro hc
    have h2 : ('[' :: (p.1 ++ ']' :: p.2) : Str).head? = some '\n' := hc
    rw [List.head?_cons] at h2
    exact absurd (Option.some.inj h2) (by decide)
  · exact getLast_segOf h

/-- `strip('\n')` of a well-formed segment plus the trailing blank line
recovers the segment. -/
theorem stripNl_seg_nn {p : Str × Str} (h : p.2.getLast? ≠ some '\n') :
    stripNl (segOf p ++ ['\n', '\n']) = segOf p := by
  show dropLead (dropTrail (segOf p ++ ['\n', '\n'])) = segOf p
  rw [dropTrail_append_nn]
  exact stripNl_segOf h

/-- `strip('\n')` leaves a well-formed rendered block unchanged. -/
theorem stripNl_mkBlock {p : Str × Str} (h : wfBlockPair p) :
    stripNl (mkBlock p) = mkBlock p := by
  apply stripNl_eq_self
  · have h4 : str "## [" ≠ [] := by decide
    have h41 : str "## [" ++ p.1 ≠ [] := by
      intro hc
      exact h4 (List.append_eq_nil.mp hc).1
    have h42 : (str "## [" ++ p.1) ++ str "]" ≠ [] := by
      intro hc
      exact absurd (List.append_eq_nil.mp hc).2 (by decide)
    have hhead : (mkBlock p).head? = some '#' := by
      rw [mkBlock, head?_append_ne h42, head?_append_ne h41,
        head?_append_ne h4]
      decide
    intro hc
    rw [hhead] at hc
    exact absurd (Option.some.inj hc) (by decide)
  · rw [mkBlock]
    cases hp2 : p.2 with
    | nil =>
      rw [List.append_nil, getLast?_append_ne (by decide : str "]" ≠ [])]
      decide
    | cons c r =>
      rw [getLast?_append_ne (List.cons_ne_nil c r)]
      have h2 := h.2.2
      rw [hp2] at h2
      exact h2

/-- The bracket scan recovers a tag that stays on one line and has no
closing bracket of its own. -/
theorem afterBracket_exact {z : Str} : ∀ {tag : Str},
    (∀ c ∈ tag, ¬(c = ']' ∨ c = '\n')) →
    afterBracket (tag ++ ']' :: z) = some tag := by
  intro tag
  induction tag with
  | nil =>
    intro _
    rw [List.nil_append, afterBracket, if_pos rfl]
  | cons c r ih =>
    intro h
    have hc := h c (List.mem_cons_self c r)
    rw [List.cons_append, afterBracket,
      if_neg (fun he => hc (Or.inl he)), if_neg (fun he => hc (Or.inr he)),
      ih (fun d hd => h d (List.mem_cons_of_mem c hd))]
    rfl

/-- `re.search(r'\[.*?\]')` on a well-formed segment yields its tag. -/
theorem findBracket_seg {p : Str × Str}
    (h : ∀ c ∈ p.1, ¬(c = ']' ∨ c = '\n')) :
    findBracket (segOf p) = some p.1 := by
  show findBracket ('[' :: (p.1 ++ ']' :: p.2)) = some p.1
  rw [findBracket, if_pos rfl, afterBracket_exact h]

/-- `re.search(r'\[.*?\]')` on the final segment (which keeps the
trailing blank line) also yields its tag. -/
theorem findBracket_seg_nn {p : Str × Str}
    (h : ∀ c ∈ p.1, ¬(c = ']' ∨ c = '\n')) :
    findBracket (segOf p ++ ['\n', '\n']) = some p.1 := by
  have heq : segOf p ++ ['\n', '\n'] =
      '[' :: (p.1 ++ ']' :: (p.2 ++ ['\n', '\n'])) := by
    rw [segOf]
    simp
  rw [heq, findBracket, if_pos rfl, afterBracket_exact h]

/-- A blank line followed by a rendered block is the block separator
followed by the block's parser segment. -/
theorem sep_decomp (p : Str × Str) :
    str "\n\n" ++ mkBlock p = sepBlock ++ segOf p := by
  rw [mkBlock, segOf, sepBlock]
  have h1 : str "## [" = '#' :: '#' :: ' ' :: ['['] := by decide
  have h2 : str "]" = [']'] := by decide
  have h3 : str "\n\n" = '\n' :: ['\n'] := by decide
  have h4 : str "\n\n## " = '\n' :: '\n' :: '#' :: '#' :: [' '] := by decide
  rw [h1, h2, h3, h4]
  simp

/-- `sep_decomp` with an explicit continuation. -/
theorem sep_decomp_z (p : Str × Str) (z : Str) :
    str "\n\n" ++ (mkBlock p ++ z) = sepBlock ++ (segOf p ++ z) := by
  rw [← List.append_assoc, ← List.append_assoc, sep_decomp]

/-- Re-attaching the `## ` consumed by the splitter to a segment
reproduces the block. -/
theorem block_decomp (p : Str × Str) : str "## " ++ segOf p = mkBlock p := by
  rw [mkBlock, segOf]
  have h1 : str "## [" = str "## " ++ ['['] := by decide
  have h2 : str "]" = [']'] := by decide
  rw [h1, h2]
  simp

/-- A segment is neither empty nor an `Unreleased` block, so the parser
does not skip it. -/
theorem seg_cond (p : Str × Str) :
    ¬ (isPre (str "Unreleased") (segOf p) = true ∨ segOf p = []) := by
  intro hor
  rcases hor with hC | hC
  · have h2 : isPre (str "Unreleased") ('[' :: (p.1 ++ ']' :: p.2)) = true := hC
    rw [unreleased_seg] at h2
    exact absurd h2 (by simp)
  · have h2 : ('[' :: (p.1 ++ ']' :: p.2) : Str) = [] := hC
    exact List.cons_ne_nil _ _ h2

/-- The final segment, blank line included, is likewise not skipped. -/
theorem seg_cond_nn (p : Str × Str) :
    ¬ (isPre (str "Unreleased") (segOf p ++ ['\n', '\n']) = true ∨
      segOf p ++ ['\n', '\n'] = []) := by
  intro hor
  rcases hor with hC | hC
  · have h2 : isPre (str "Unreleased")
        ('[' :: ((p.1 ++ ']' :: p.2) ++ ['\n', '\n'])) = true := hC
    rw [unreleased_seg] at h2
    exact absurd h2 (by simp)
  · have h2 : ('[' :: ((p.1 ++ ']' :: p.2) ++ ['\n', '\n']) : Str) = [] := hC
    exact List.cons_ne_nil _ _ h2

/-- `assemble_changelog` seen as the assembly of the list of non-empty
content blocks, in dict order. -/
theorem assemble_eq_blocks (d : List (Str × ReleaseMeta)) :
    assemble_changelog d =
      assembleBlocks ((d.map (fun p => p.2.content)).filter
        (fun c => c ≠ [])) := by
  unfold assemble_changelog assembleBlocks
  have hfold : ∀ (l : List (Str × ReleaseMeta)) (acc : Str),
      l.foldl
        (fun changelog p =>
          if p.2.content ≠ [] then changelog ++ str "\n\n" ++ stripNl p.2.content
          else changelog) acc =
      ((l.map (fun p => p.2.content)).filter (fun c => c ≠ [])).foldl
        (fun changelog b => changelog ++ str "\n\n" ++ stripNl b) acc := by
    intro l
    induction l with
    | nil => intro acc; rfl
    | cons p rest ih =>
      intro acc
      rw [List.foldl_cons, List.map_cons]
      by_cases hc : p.2.content = []
      · rw [if_neg (by simp [hc]), List.filter_cons_of_neg (by simp [hc])]
        exact ih acc
      · rw [if_pos (by simp [hc]), List.filter_cons_of_pos (by simp [hc]),
          List.foldl_cons]
        exact ih _
  rw [hfold]

/-- Assembling the rendered blocks of well-formed pairs produces the
title, the chained body, and the signature envelope. -/
theorem fold_chain (ps : List (Str × Str)) (hwf : ∀ p ∈ ps, wfBlockPair p) :
    assembleBlocks (ps.map mkBlock) =
      (titleLine ++ chainX ps) ++ (signature ++ ['\n']) := by
  have key : ∀ (l : List (Str × Str)), (∀ p ∈ l, wfBlockPair p) →
      ∀ acc : Str,
      (l.map mkBlock).foldl
          (fun changelog b => changelog ++ str "\n\n" ++ stripNl b) acc ++
        str "\n\n" = acc ++ chainX l := by
    intro l
    induction l with
    | nil =>
      intro _ acc
      rw [List.map_nil, List.foldl_nil, chainX,
        show str "\n\n" = ['\n', '\n'] from by decide]
    | cons p rest ih =>
      intro hl acc
      rw [List.map_cons, List.foldl_cons,
        ih (fun q hq => hl q (List.mem_cons_of_mem p hq)) _,
        stripNl_mkBlock (hl p (List.mem_cons_self p rest)), chainX,
        ← sep_decomp_z]
      simp [List.append_assoc]
  rw [assembleBlocks, key ps hwf titleLine, List.append_assoc]

/-- The splitter cuts the chained body of well-formed segments at every
separator, keeping the final blank line on the last segment. -/
theorem split_segs (ps : List (Str × Str)) :
    ∀ p, findOcc ('\n' :: str "\n## ") (segOf p) = none →
    (∀ q ∈ ps, findOcc ('\n' :: str "\n## ") (segOf q) = none) →
    pySplit '\n' (str "\n## ") (segOf p ++ chainX ps) = segsOf (p :: ps) := by
  induction ps with
  | nil =>
    intro p hp _
    rw [chainX]
    show pySplit '\n' (str "\n## ") (segOf p ++ ['\n', '\n']) =
      [segOf p ++ ['\n', '\n']]
    exact pySplit_none (findOcc_nn_of_none hp)
  | cons q rest ih =>
    intro p hp hq
    rw [chainX, show sepBlock = '\n' :: str "\n## " from by decide,
      ← List.append_assoc,
      pySplit_boundary (segOf p) (segOf q ++ chainX rest) hp sep_overlap,
      ih q (hq q (List.mem_cons_self q rest))
        (fun r hr => hq r (List.mem_cons_of_mem q hr))]
    rfl

/-- A key absent from a dict stays absent after appending a different
key. -/
theorem dlookup_append_single {α : Type} (m : List (Str × α)) (k t : Str)
    (v : α) (h : dlookup m t = none) (hne : t ≠ k) :
    dlookup (m ++ [(k, v)]) t = none := by
  induction m with
  | nil =>
    rw [List.nil_append, dlookup, if_neg (fun hh => hne hh.symm)]
    rfl
  | cons x m2 ih =>
    obtain ⟨k1, w⟩ := x
    rw [dlookup] at h
    rw [List.cons_append, dlookup]
    by_cases h1 : k1 = t
    · rw [if_pos h1] at h
      exact absurd h (by simp)
    · rw [if_neg h1] at h ⊢
      exact ih h

/-- Folding the parser step over the segments of well-formed pairs with
distinct fresh tags appends exactly the pairs' blocks, without warnings. -/
theorem parse_fold :
    ∀ (ps : List (Str × Str)), (∀ p ∈ ps, wfBlockPair p) →
      (ps.map Prod.fst).Nodup →
      ∀ (m : List (Str × Str)) (w : List Str),
        (∀ p ∈ ps, dlookup m p.1 = none) →
        (segsOf ps).foldl parseSegStep (m, w) =
          (m ++ ps.map (fun p => (p.1, mkBlock p)), w) := by
  intro ps
  induction ps with
  | nil =>
    intro _ _ m w _
    simp [segsOf]
  | cons p rest ih =>
    intro hwf hnd m w hm
    have hwfp := hwf p (List.mem_cons_self p rest)
    cases rest with
    | nil =>
      show List.foldl parseSegStep (m, w) [segOf p ++ ['\n', '\n']] = _
      rw [List.foldl_cons, List.foldl_nil, parseSegStep,
        if_neg (seg_cond_nn p), findBracket_seg_nn hwfp.1]
      dsimp only
      rw [stripNl_seg_nn hwfp.2.2, block_decomp,
        dinsert_of_lookup_none _ _ _ (hm p (List.mem_cons_self p []))]
      simp
    | cons q rest2 =>
      show List.foldl parseSegStep (m, w) (segOf p :: segsOf (q :: rest2)) = _
      rw [List.foldl_cons, parseSegStep,
        if_neg (seg_cond p), findBracket_seg hwfp.1]
      dsimp only
      rw [stripNl_segOf hwfp.2.2, block_decomp,
        dinsert_of_lookup_none _ _ _ (hm p (List.mem_cons_self p (q :: rest2)))]
      have hnotmem : p.1 ∉ (q :: rest2).map Prod.fst := by
        rw [List.map_cons] at hnd
        exact (List.nodup_cons.mp hnd).1
      have hnd2 : ((q :: rest2).map Prod.fst).Nodup := by
        rw [List.map_cons] at hnd
        exact (List.nodup_cons.mp hnd).2
      have hm2 : ∀ r ∈ q :: rest2,
          dlookup (m ++ [(p.1, mkBlock p)]) r.1 = none := by
        intro r hr
        refine dlookup_append_single _ _ _ _
          (hm r (List.mem_cons_of_mem p hr)) ?_
        intro he
        exact hnotmem (he ▸ List.mem_map_of_mem Prod.fst hr)
      rw [ih (fun r hr => hwf r (List.mem_cons_of_mem p hr)) hnd2 _ _ hm2]
      simp [List.append_assoc]

/-- Parsing the canonical assembled document recovers exactly the
well-formed pairs' blocks, keyed by their tags, in order. -/
theorem analyze_core (ps : List (Str × Str)) (hwf : ∀ p ∈ ps, wfBlockPair p)
    (hnd : (ps.map Prod.fst).Nodup) :
    (analyze_changelog ((titleLine ++ chainX ps) ++ (signature ++ ['\n']))).1 =
      ps.map (fun p => (p.1, mkBlock p)) := by
  have h1 : isPre titleLine
      ((titleLine ++ chainX ps) ++ (signature ++ ['\n'])) = true := by
    rw [List.append_assoc]
    exact isPre_append_self _ _
  have h2 : isSuf (signature ++ ['\n'])
      ((titleLine ++ chainX ps) ++ (signature ++ ['\n'])) = true := by
    show isPre (signature ++ ['\n']).reverse
      (((titleLine ++ chainX ps) ++ (signature ++ ['\n'])).reverse) = true
    rw [List.reverse_append (titleLine ++ chainX ps)]
    exact isPre_append_self _ _
  have hslice : ((((titleLine ++ chainX ps) ++ (signature ++ ['\n'])).take
      (((titleLine ++ chainX ps) ++ (signature ++ ['\n'])).length -
        (signature ++ ['\n']).length)).drop titleLine.length) = chainX ps := by
    rw [List.length_append, Nat.add_sub_cancel, List.take_left,
      List.drop_left]
  rw [analyze_changelog, if_pos (And.intro h1 h2)]
  dsimp only
  rw [hslice,
    show pySplitOn (str "\n\n## ") (chainX ps) =
      pySplit '\n' (str "\n## ") (chainX ps) from rfl]
  cases ps with
  | nil =>
    rw [chainX, pySplit_none (by decide)]
    decide
  | cons p rest =>
    have hsb : sepBlock = '\n' :: str "\n## " := by decide
    have hfind : ∀ q ∈ p :: rest,
        findOcc ('\n' :: str "\n## ") (segOf q) = none := by
      intro q hq
      have h3 := (hwf q hq).2.1
      rw [hsb] at h3
      exact h3
    rw [chainX, hsb]
    have hfirst := @pySplit_boundary '\n' (str "\n## ") []
      (segOf p ++ chainX rest) rfl sep_overlap
    rw [List.nil_append] at hfirst
    rw [hfirst,
      split_segs rest p (hfind p (List.mem_cons_self p rest))
        (fun r hr => hfind r (List.mem_cons_of_mem p hr)),
      List.foldl_cons,
      show parseSegStep (([] : List (Str × Str)), ([] : List Str)) [] =
        ([], []) from by decide,
      parse_fold (p :: rest) hwf hnd [] [] (fun r hr => rfl)]
    rfl

/-- CLAIM C5 — round-trip stability, amended: for a dict whose non-empty
contents are the rendered blocks of well-formed pairs (tag on one line with
no closing bracket, no embedded block separator, no trailing newline) with
distinct tags, parsing the assembled document recovers exactly the
tag-to-block mapping of those pairs, and reassembling the parsed blocks
reproduces the document byte for byte.  The claim's unconditional version
is false: a rendered description may embed the block separator, which the
parser then cuts — see `claim5_counterexample`. -/
theorem claim5_round_trip (d : List (Str × ReleaseMeta)) (ps : List (Str × Str))
    (hc : (d.map (fun p => p.2.content)).filter (fun c => c ≠ []) =
      ps.map mkBlock)
    (hwf : ∀ p ∈ ps, wfBlockPair p)
    (hnd : (ps.map Prod.fst).Nodup) :
    (analyze_changelog (assemble_changelog d)).1 =
        ps.map (fun p => (p.1, mkBlock p)) ∧
      assembleBlocks
          ((analyze_changelog (assemble_changelog d)).1.map (fun q => q.2)) =
        assemble_changelog d := by
  have hA : assemble_changelog d = assembleBlocks (ps.map mkBlock) := by
    rw [assemble_eq_blocks, hc]
  have hparse : (analyze_changelog (assemble_changelog d)).1 =
      ps.map (fun p => (p.1, mkBlock p)) := by
    rw [hA, fold_chain ps hwf]
    exact analyze_core ps hwf hnd
  refine ⟨hparse, ?_⟩
  rw [hparse, List.map_map]
  show assembleBlocks (ps.map mkBlock) = assemble_changelog d
  rw [hA]

set_option maxRecDepth 10000 in
/-- Counterexample to the unconditional C5: a release whose description
contains `"\n\n\n## [x](y)"` renders to a block that embeds the block
separator; the parser splits the assembled document inside that block, so
reassembling the parsed mapping loses a newline and invents a second
release — the round trip is not byte-for-byte. -/
theorem claim5_counterexample :
    ¬ assembleBlocks
        ((analyze_changelog (assemble_changelog
          [(str "R",
            (⟨str "u", str "A\n\n\n## [x](y)", str "d", str "s",
              generate_release_changelog
                (⟨str "u", str "A\n\n\n## [x](y)", str "d", str "s", []⟩ :
                  ReleaseMeta)
                [] (str "R") [(str "feat", str "Feature")] (str "general")
                false []⟩ : ReleaseMeta))])).1.map (fun q => q.2)) =
      assemble_changelog
        [(str "R",
          (⟨str "u", str "A\n\n\n## [x](y)", str "d", str "s",
            generate_release_changelog
              (⟨str "u", str "A\n\n\n## [x](y)", str "d", str "s", []⟩ :
                ReleaseMeta)
              [] (str "R") [(str "feat", str "Feature")] (str "general")
              false []⟩ : ReleaseMeta))] := by
  decide

/-- Witness for C5: a dict holding one rendered block and one empty
release assembles to a document that parses back to exactly that block
and reassembles to the same document. -/
theorem claim5_witness :
    ((([(str "V",
          (⟨[], [], [], [], str "## [R1](u1) - d1\n\nHello"⟩ : ReleaseMeta)),
        (str "E", emptyMeta)].map (fun p => p.2.content)).filter
        (fun c => c ≠ [])) =
      [(str "R1", str "(u1) - d1\n\nHello")].map mkBlock) ∧
    ((analyze_changelog (assemble_changelog
        [(str "V",
          (⟨[], [], [], [], str "## [R1](u1) - d1\n\nHello"⟩ : ReleaseMeta)),
         (str "E", emptyMeta)])).1 =
      [(str "R1", str "(u1) - d1\n\nHello")].map (fun p => (p.1, mkBlock p)) ∧
    assembleBlocks ((analyze_changelog (assemble_changelog
        [(str "V",
          (⟨[], [], [], [], str "## [R1](u1) - d1\n\nHello"⟩ : ReleaseMeta)),
         (str "E", emptyMeta)])).1.map (fun q => q.2)) =
      assemble_changelog
        [(str "V",
          (⟨[], [], [], [], str "## [R1](u1) - d1\n\nHello"⟩ : ReleaseMeta)),
         (str "E", emptyMeta)]) :=
  ⟨by decide,
   claim5_round_trip
     [(str "V",
       (⟨[], [], [], [], str "## [R1](u1) - d1\n\nHello"⟩ : ReleaseMeta)),
      (str "E", emptyMeta)]
     [(str "R1", str "(u1) - d1\n\nHello")]
     (by decide) (by decide) (by decide)⟩

end AGC
